import Mathlib

/-!
# Verification of the Cmdly interpreter core

Shallow embedding of the Cmdly command interpreter pipeline
(`src/core/tokenizer.py`, `src/core/parser.py`, `src/core/executor.py`,
`src/core/core_types/tokens.py`, `src/core/core_types/command.py`)
together with proofs about the claims of the specification.

Conventions of the embedding:
* Strings are handled as `List Char`; positions are zero-based character
  offsets, matching Python string indexing.
* The regex master pattern of `Tokenizer` is compiled by hand into a
  priority-ordered chain of matchers, one per `(TokType, pattern)` pair,
  in the order of `Tokenizer.patterns`.  Character classes are the ASCII
  fragments of Python's `\s`, `\w` and `[a-zA-Z0-9_-]`.
* Python exceptions are modelled with `Except` / explicit outcome types;
  `print` output is collected into lists of messages.  Logger calls are
  not modelled (logging is out of the specified scope).
* Python `dict` is an insertion-ordered association list; assignment
  updates the value in place or appends a new binding at the end.
-/

namespace Cmdly


/-! ## Tokens (`core/core_types/tokens.py`) -/

/-- `TokType` enumeration from `tokens.py`. -/
inductive TokType where
  | COMMAND
  | STRING
  | FLAG
  | AND
  | OR
  | SEMI
  | EOF
  | WHITESPACE
  | MISMATCH
deriving DecidableEq, Repr


/-- `Token` named tuple from `tokens.py`: a kind and a literal value. -/
structure Token where
  type : TokType
  value : String
deriving DecidableEq, Repr


/-! ## Tokenizer (`core/tokenizer.py`)

`Tokenizer.patterns` in priority order:
```
(WHITESPACE, r"\s+"), (AND, r"&&"), (OR, r"\|\|"), (SEMI, r";"),
(FLAG, r"--?\w+"),
(STRING, double-quoted), (STRING, single-quoted),
(COMMAND, r"[a-zA-Z0-9_-]+"), (MISMATCH, r".")
```
The master pattern is the alternation of these, so at each scan position
the first pattern (in this order) that matches wins. -/

/-- ASCII fragment of Python's `\s` character class. -/
def isSpaceChar (c : Char) : Bool :=
  c = ' ' || c = '\t' || c = '\n' || c = '\r' || c = '\x0b' || c = '\x0c'


/-- ASCII fragment of Python's `\w` character class. -/
def isWordChar (c : Char) : Bool :=
  ('a' ≤ c && c ≤ 'z') || ('A' ≤ c && c ≤ 'Z') || ('0' ≤ c && c ≤ '9') || c = '_'


/-- The `[a-zA-Z0-9_-]` character class of the COMMAND pattern. -/
def isCmdChar (c : Char) : Bool :=
  isWordChar c || c = '-'


/-- `\s+` at the scan position: at least one whitespace character,
greedily consuming the whole run.  Returns the rest. -/
def matchWs : List Char → Option (List Char)
  | [] => none
  | c :: cs => if isSpaceChar c then some (cs.dropWhile isSpaceChar) else none


/-- `&&` at the scan position. -/
def matchAnd : List Char → Option (List Char)
  | [] => none
  | c :: cs =>
    if c = '&' then
      match cs with
      | [] => none
      | c2 :: r => if c2 = '&' then some r else none
    else none


/-- `\|\|` at the scan position. -/
def matchOr : List Char → Option (List Char)
  | [] => none
  | c :: cs =>
    if c = '|' then
      match cs with
      | [] => none
      | c2 :: r => if c2 = '|' then some r else none
    else none


/-- `;` at the scan position. -/
def matchSemi : List Char → Option (List Char)
  | [] => none
  | c :: cs => if c = ';' then some cs else none


/-- `--?\w+` at the scan position (greedy, with the regex backtracking
semantics: `--` followed by a non-word character falls back to a single
`-`, whose `\w+` then also fails because `-` is not a word character).
Returns the matched characters — dashes included, as in the Python
code, which yields the raw match group for FLAG tokens — and the rest. -/
def matchFlag : List Char → Option (List Char × List Char)
  | [] => none
  | c :: cs =>
    if c = '-' then
      match cs with
      | [] => none
      | c2 :: cs2 =>
        if c2 = '-' then
          match cs2 with
          | [] => none
          | c3 :: cs3 =>
            if isWordChar c3 then
              some ('-' :: '-' :: c3 :: cs3.takeWhile isWordChar, cs3.dropWhile isWordChar)
            else none
        else if isWordChar c2 then
          some ('-' :: c2 :: cs2.takeWhile isWordChar, cs2.dropWhile isWordChar)
        else none
    else none


/-- Body of a quoted string after the opening quote `q`:
`[^q\\]*(\\.[^q\\]*)*` followed by the closing quote.  Escape pairs are
kept literally (the Python code strips only the outer quotes).  `\\.`
does not match a newline (`.` without DOTALL).  Returns the body and
the rest after the closing quote. -/
def strBody (q : Char) : List Char → Option (List Char × List Char)
  | [] => none
  | c :: cs =>
    if c = q then some ([], cs)
    else if c = '\\' then
      match cs with
      | [] => none
      | d :: cs2 =>
        if d = '\n' then none
        else match strBody q cs2 with
          | none => none
          | some (body, r) => some (c :: d :: body, r)
    else match strBody q cs with
      | none => none
      | some (body, r) => some (c :: body, r)


/-- A `q`-quoted string at the scan position.  Returns the body with
the surrounding quotes stripped (the `group[1:-1]` step of
`Tokenizer.tokenize`) and the rest. -/
def matchQuoted (q : Char) : List Char → Option (List Char × List Char)
  | [] => none
  | c :: cs => if c = q then strBody q cs else none


/-- `[a-zA-Z0-9_-]+` at the scan position (greedy). -/
def matchCmd : List Char → Option (List Char × List Char)
  | [] => none
  | c :: cs =>
    if isCmdChar c then some (c :: cs.takeWhile isCmdChar, cs.dropWhile isCmdChar)
    else none


/-- Result of one application of the master pattern at a scan position. -/
inductive Step where
  /-- WHITESPACE matched: skip, continue at `rest`. -/
  | ws (rest : List Char)
  /-- A token pattern matched: yield `t`, continue at `rest`. -/
  | tok (t : Token) (rest : List Char)
  /-- Only MISMATCH matched: fatal lexical error on `c`. -/
  | bad (c : Char)
deriving DecidableEq, Repr


/-- One application of the master pattern: the first pattern of
`Tokenizer.patterns` that matches at the current position wins.
(On the empty list no pattern matches; the scan loop never asks.) -/
def nextStep (cs : List Char) : Step :=
  match matchWs cs with
  | some r => Step.ws r
  | none =>
  match matchAnd cs with
  | some r => Step.tok ⟨TokType.AND, "&&"⟩ r
  | none =>
  match matchOr cs with
  | some r => Step.tok ⟨TokType.OR, "||"⟩ r
  | none =>
  match matchSemi cs with
  | some r => Step.tok ⟨TokType.SEMI, ";"⟩ r
  | none =>
  match matchFlag cs with
  | some (v, r) => Step.tok ⟨TokType.FLAG, String.mk v⟩ r
  | none =>
  match matchQuoted '"' cs with
  | some (v, r) => Step.tok ⟨TokType.STRING, String.mk v⟩ r
  | none =>
  match matchQuoted '\'' cs with
  | some (v, r) => Step.tok ⟨TokType.STRING, String.mk v⟩ r
  | none =>
  match matchCmd cs with
  | some (v, r) => Step.tok ⟨TokType.COMMAND, String.mk v⟩ r
  | none =>
  match cs with
  | c :: _ => Step.bad c
  | [] => Step.ws []


/-- The rest-of-input component of a step, when the scan continues. -/
def Step.rest : Step → Option (List Char)
  | Step.ws r => some r
  | Step.tok _ r => some r
  | Step.bad _ => none


/-- The scan loop of `Tokenizer.tokenize`: `pos` is the zero-based
character offset of the head of `cs` in the original text.  Returns
the tokens yielded before either the end of the text or a fatal
mismatch; a mismatch is reported with the offending character and its
position (the Python code raises
`SyntaxError(f"Unexpected character: {group!r} at position {pos}")`;
the error payload here is the `(character, position)` pair that message
is built from).  Tokens yielded before the error are part of the
result, as they are for the Python generator. -/
def scanGo : Nat → List Char → Nat → List Token × Option (Char × Nat)
  | 0, _, _ => ([], none)
  | _ + 1, [], _ => ([], none)
  | fuel + 1, c :: cs, pos =>
    match nextStep (c :: cs) with
    | Step.ws rest => scanGo fuel rest (pos + ((c :: cs).length - rest.length))
    | Step.tok t rest =>
      let res := scanGo fuel rest (pos + ((c :: cs).length - rest.length))
      (t :: res.1, res.2)
    | Step.bad ch => ([], some (ch, pos))


def scanTokens (cs : List Char) (pos : Nat) : List Token × Option (Char × Nat) :=
  scanGo cs.length cs pos


/-- `Tokenizer.tokenize`: scan the whole text from position 0; when no
lexical error occurs, exactly one EOF token is yielded at the end. -/
def tokenize (text : String) : List Token × Option (Char × Nat) :=
  match scanTokens text.data 0 with
  | (ts, none) => (ts ++ [⟨TokType.EOF, ""⟩], none)
  | (ts, some e) => (ts, some e)


/-! ## Parser (`core/parser.py`)

`Parser` holds the token deque; `next_token` pops from the left and
substitutes an EOF token when the deque is empty.  Here the remaining
deque is a `List Token` and the current token is its head (or EOF). -/

/-- The current token: head of the remaining tokens, or EOF when the
deque is exhausted (`Parser.next_token`). -/
def curTok (ts : List Token) : Token :=
  ts.headD ⟨TokType.EOF, ""⟩


/-- The token kinds at which `parse_command`'s argument loop stops:
`{AND, OR, SEMI, EOF}`. -/
def stopTok (t : TokType) : Bool :=
  t = TokType.AND || t = TokType.OR || t = TokType.SEMI || t = TokType.EOF


/-- The separator kinds consumed between chains by `Parser.parse`:
`{SEMI, AND, OR}`. -/
def sepTok (t : TokType) : Bool :=
  t = TokType.SEMI || t = TokType.AND || t = TokType.OR


/-- Values of named arguments: `kwargs[k] = v` stores a string, and a
bare flag with no value stores Python `True` (`parser.py`). -/
inductive ArgVal where
  | str (s : String)
  | bool (b : Bool)
deriving DecidableEq, Repr


/-- Python `dict` assignment `d[k] = v` on an insertion-ordered
association list: update in place if the key is present, else append. -/
def dictInsert (k : String) (v : ArgVal) : List (String × ArgVal) → List (String × ArgVal)
  | [] => [(k, v)]
  | (k2, v2) :: rest => if k2 = k then (k2, v) :: rest else (k2, v2) :: dictInsert k v rest


/-- Python `s.lstrip("-")`: remove all leading dashes. -/
def lstripDash (s : String) : String :=
  String.mk (s.data.dropWhile (fun c => c = '-'))


/-- Python `s.split("=", 1)`: split at the first `=` (callers check
`"=" in s` first, so the separator is present). -/
def splitEq (s : String) : String × String :=
  (String.mk (s.data.takeWhile (fun c => c ≠ '=')),
   String.mk ((s.data.dropWhile (fun c => c ≠ '=')).drop 1))


/-- Python `"=" in s`. -/
def hasEq (s : String) : Bool :=
  s.data.contains '='


/-- The `while` loop of `Parser.parse_command`, started after the
command token has been consumed.  Accumulates positional `args` and
keyword `kwargs` following the code's branch order:
* stop at AND/OR/SEMI/EOF;
* FLAG: strip dashes; with `=` split into key/value; otherwise consume
  the next token as the value if it is COMMAND or STRING, else record
  Python `True` without consuming;
* COMMAND/STRING: with `=` split into key/value, else positional;
* any other kind: `break`.
Returns the accumulated arguments and the unconsumed tokens. -/
def argsGo : Nat → List Token → List String → List (String × ArgVal) →
    List String × List (String × ArgVal) × List Token
  | 0, ts, args, kwargs => (args, kwargs, ts)
  | _ + 1, [], args, kwargs => (args, kwargs, [])
  | fuel + 1, t :: ts, args, kwargs =>
    if stopTok t.type then (args, kwargs, t :: ts)
    else if t.type = TokType.FLAG then
      let flag := lstripDash t.value
      if hasEq flag then
        let kv := splitEq flag
        argsGo fuel ts args (dictInsert kv.1 (ArgVal.str kv.2) kwargs)
      else
        match ts with
        | t2 :: ts2 =>
          if t2.type = TokType.COMMAND || t2.type = TokType.STRING then
            argsGo fuel ts2 args (dictInsert flag (ArgVal.str t2.value) kwargs)
          else
            argsGo fuel (t2 :: ts2) args (dictInsert flag (ArgVal.bool true) kwargs)
        | [] => (args, dictInsert flag (ArgVal.bool true) kwargs, [])
    else if t.type = TokType.COMMAND || t.type = TokType.STRING then
      if hasEq t.value then
        let kv := splitEq t.value
        argsGo fuel ts args (dictInsert kv.1 (ArgVal.str kv.2) kwargs)
      else
        argsGo fuel ts (args ++ [t.value]) kwargs
    else (args, kwargs, t :: ts)


/-- The argument loop entered with the full remaining token list.  As
with `scanTokens`, the fuel is the length of the list, which suffices
because every iteration consumes at least one token
(`argsGo_congr` below shows the fuel is irrelevant beyond that). -/
def argsLoop (ts : List Token) (args : List String) (kwargs : List (String × ArgVal)) :
    List String × List (String × ArgVal) × List Token :=
  argsGo ts.length ts args kwargs


/-- The `{"cmd": ..., "args": ..., "kwargs": ...}` dictionary returned
by `Parser.parse_command`. -/
structure CmdDict where
  cmd : String
  args : List String
  kwargs : List (String × ArgVal)
deriving DecidableEq, Repr


/-- Printable name of a token kind, as interpolated into the
`SyntaxError` message (`f"Expected command, got {self.current.type}"`). -/
def tokTypeStr : TokType → String
  | TokType.COMMAND => "TokType.COMMAND"
  | TokType.STRING => "TokType.STRING"
  | TokType.FLAG => "TokType.FLAG"
  | TokType.AND => "TokType.AND"
  | TokType.OR => "TokType.OR"
  | TokType.SEMI => "TokType.SEMI"
  | TokType.EOF => "TokType.EOF"
  | TokType.WHITESPACE => "TokType.WHITESPACE"
  | TokType.MISMATCH => "TokType.MISMATCH"


/-- `Parser.parse_command`: the current token must be COMMAND (else
`SyntaxError`); its value is the command name, and the argument loop
collects the tail.  Returns the dictionary and the unconsumed tokens. -/
def parse_command (ts : List Token) : Except String (CmdDict × List Token) :=
  let t := curTok ts
  if t.type = TokType.COMMAND then
    let r := argsLoop ts.tail [] []
    Except.ok (⟨t.value, r.1, r.2.1⟩, r.2.2)
  else Except.error ("Expected command, got " ++ tokTypeStr t.type)


/-- A chain: the dictionary produced by `Parser.parse_chain`, which is
`{"type": "COMMAND", **parse_command()}`.  The `type` field is an
`Option` because `Executor.run` reads it with
`chain.get("type", "COMMAND")`, so hand-built dictionaries may omit
the key; the parser always sets it to `"COMMAND"`. -/
structure Chain where
  type : Option String
  cmd : String
  args : List String
  kwargs : List (String × ArgVal)
deriving DecidableEq, Repr


/-- `Parser.parse_chain`: `{"type": "COMMAND", **self.parse_command()}`. -/
def parse_chain (ts : List Token) : Except String (Chain × List Token) :=
  match parse_command ts with
  | Except.error e => Except.error e
  | Except.ok (cd, rest) => Except.ok (⟨some "COMMAND", cd.cmd, cd.args, cd.kwargs⟩, rest)


/-- The `while` loop of `Parser.parse`, with fuel.  Each round parses a
chain, then consumes one separator token (SEMI, AND or OR) if present;
the bound `separator` variable of the Python code is dead (`if
separator: pass`) and is not modelled.  Fuel suffices because
`parse_chain` consumes at least the command token. -/
def parseGo : Nat → List Token → Except String (List Chain)
  | 0, _ => Except.ok []
  | fuel + 1, ts =>
    if (curTok ts).type = TokType.EOF then Except.ok []
    else
      match parse_chain ts with
      | Except.error e => Except.error e
      | Except.ok (chain, rest) =>
        match parseGo fuel (if sepTok (curTok rest).type then rest.tail else rest) with
        | Except.error e => Except.error e
        | Except.ok cs => Except.ok (chain :: cs)


/-- `Parser.parse`: parse chains until the EOF token. -/
def parse (ts : List Token) : Except String (List Chain) :=
  parseGo ts.length ts


/-- The two error species of the pipeline driven by the interactive
loop (`cli.py`): a `SyntaxError` raised by the tokenizer (offending
character and zero-based position) or one raised by the parser. -/
inductive LineError where
  | lex (c : Char) (pos : Nat)
  | syn (msg : String)
deriving DecidableEq, Repr


/-- The lexing+parsing pipeline of one input line, as driven by
`CLI.run`: `tokens = list(tokenizer.tokenize(line))` followed by
`Parser(tokens).parse()`.  A lexical error aborts before parsing. -/
def parseLine (text : String) : Except LineError (List Chain) :=
  match tokenize text with
  | (_, some e) => Except.error (LineError.lex e.1 e.2)
  | (ts, none) =>
    match parse ts with
    | Except.error m => Except.error (LineError.syn m)
    | Except.ok cs => Except.ok cs


/-! ## Executor (`core/executor.py`, `core/core_types/command.py`)

`Executor.execute_command` dynamically imports
`commands.<cmd_name.lower()>` and scans the module for a strict
subclass of `BaseCommand`.  The embedding models this lookup as a
function from the lowercased name to `Option (Option CommandClass)`:
`none` means the import fails (`ModuleNotFoundError`), `some none`
means the module exists but holds no command class (the scan leaves
`CommandClass = None`), and `some (some c)` is the found class.
A plugin's `execute` either returns a value or raises; `print` output
is collected in order. -/

/-- A Python value returned by a plugin's `execute`.  Python booleans
are integers (`False == 0`, `True == 1`), so boolean results are
`int` values here; `none` is Python `None` and `str` covers other
common non-integer returns. -/
inductive PyVal where
  | int (n : Int)
  | none
  | str (s : String)
deriving DecidableEq, Repr


/-- Python `result != 0` as evaluated in `execute_command` for the
modelled value kinds: an `int` compares by value, `None` and strings
are never equal to `0`. -/
def pyNeZero : PyVal → Bool
  | PyVal.int n => n != 0
  | PyVal.none => true
  | PyVal.str _ => true


/-- Python `str(result)` as interpolated into the failure message. -/
def pyStr : PyVal → String
  | PyVal.int n => toString n
  | PyVal.none => "None"
  | PyVal.str s => s


/-- A command class found in a command module: the `fun` class
attribute (`getattr(CommandClass, "fun", False)`; the field is named
`isFun` because `fun` is reserved in Lean) and the `execute` method,
which returns a value or raises an exception (`Except.error` carries
`str(e)`). -/
structure CommandClass where
  isFun : Bool
  execute : List String → List (String × ArgVal) → Except String PyVal


/-- The `Executor` state: the alias table loaded from configuration,
the `features.fun_commands` flag, and the module lookup described
above. -/
structure Executor where
  aliases : List (String × String)
  fun_commands : Bool
  modules : String → Option (Option CommandClass)


/-- Python `str.lower()` (ASCII). -/
def pyLower (s : String) : String :=
  String.mk (s.data.map Char.toLower)


/-- `Executor.resolve_alias`: `self.aliases.get(command, command)`. -/
def resolve_alias (ex : Executor) (command : String) : String :=
  match ex.aliases.lookup command with
  | some v => v
  | Option.none => command


/-- Outcome of `Executor.execute_command`: either an exception
propagates to the caller (`raised`), or a boolean is returned along
with the messages printed during the call. -/
inductive ExecOutcome where
  | raised (msg : String)
  | returned (ok : Bool) (printed : List String)
deriving DecidableEq, Repr


/-- The warning printed when a fun command is gated off. -/
def funWarning : String :=
  "⚠️  Fun commands are currently disabled. Please enable them in the configuration. (config/default_settings.json)"


/-- `Executor.execute_command`.  Following the code:
* resolve the alias, look the module up under the lowercased name;
  an import failure is caught and re-raised as
  `ModuleNotFoundError(f"Command not found: {cmd_name}")` (the
  `return False` after the `raise` is dead code);
* if the found class has a true `fun` attribute while the
  `fun_commands` feature flag is off, print a warning and return
  `True` without invoking the class;
* otherwise instantiate and call `execute(*args, **kwargs)`; an
  exception is caught, printed and turned into `False` (when the scan
  found no class, `CommandClass()` is `None()` and raises `TypeError`,
  caught by the same handler); a result `!= 0` prints one failure
  message and returns `False`; a result equal to `0` returns `True`. -/
def execute_command (ex : Executor) (cmd_dict : Chain) : ExecOutcome :=
  let cmd_name := resolve_alias ex cmd_dict.cmd
  match ex.modules (pyLower cmd_name) with
  | Option.none => ExecOutcome.raised ("Command not found: " ++ cmd_name)
  | Option.some commandClass =>
    let funAttr := match commandClass with
      | Option.some c => c.isFun
      | Option.none => false
    if funAttr && !ex.fun_commands then
      ExecOutcome.returned true [funWarning]
    else
      match commandClass with
      | Option.none =>
        ExecOutcome.returned false
          ["Error running command '" ++ cmd_name ++ "': 'NoneType' object is not callable"]
      | Option.some c =>
        match c.execute cmd_dict.args cmd_dict.kwargs with
        | Except.error e =>
          ExecOutcome.returned false ["Error running command '" ++ cmd_name ++ "': " ++ e]
        | Except.ok result =>
          if pyNeZero result then
            ExecOutcome.returned false
              ["Command '" ++ cmd_name ++ "' failed with exit code " ++ pyStr result]
          else ExecOutcome.returned true []


/-- The loop of `Executor.run`, carrying `last_status` (initially
`True`).  A chain whose `type` (defaulted to `"COMMAND"`) is
`"COMMAND"` is executed and its status replaces `last_status`; any
other type prints a skip message and leaves the status unchanged.  An
exception raised by `execute_command` propagates (`Except.error`).
Printed messages are collected in order. -/
def runChains (ex : Executor) : List Chain → Bool → Except String (Bool × List String)
  | [], last_status => Except.ok (last_status, [])
  | chain :: rest, last_status =>
    let cmd_type := chain.type.getD "COMMAND"
    if cmd_type = "COMMAND" then
      match execute_command ex chain with
      | ExecOutcome.raised m => Except.error m
      | ExecOutcome.returned b printed =>
        match runChains ex rest b with
        | Except.error m => Except.error m
        | Except.ok (s, ms) => Except.ok (s, printed ++ ms)
    else
      match runChains ex rest last_status with
      | Except.error m => Except.error m
      | Except.ok (s, ms) => Except.ok (s, ("Unsupported chain type: " ++ cmd_type) :: ms)


/-- `Executor.run`: `last_status = True`, then the loop above; the
status of the last executed chain is returned. -/
def run (ex : Executor) (chains : List Chain) : Except String (Bool × List String) :=
  runChains ex chains true

/-! ## Theorems -/


theorem length_dropWhile_le (p : Char → Bool) (l : List Char) :
    (l.dropWhile p).length ≤ l.length :=
  (List.dropWhile_suffix p).length_le


theorem matchWs_length {cs r : List Char} (h : matchWs cs = some r) :
    r.length < cs.length := by
  match cs with
  | [] => simp [matchWs] at h
  | c :: cs' =>
    simp only [matchWs] at h
    split at h
    · cases h
      exact Nat.lt_succ_of_le (length_dropWhile_le _ _)
    · cases h


theorem strBody_length {q : Char} : ∀ cs {b r : List Char},
    strBody q cs = some (b, r) → r.length < cs.length := by
  intro cs
  induction cs using strBody.induct q with
  | case1 => intro b r h; rw [strBody.eq_def] at h; cases h
  | case2 cs2 =>
    intro b r h
    rw [strBody.eq_def] at h
    simp at h
    obtain ⟨-, h2⟩ := h
    subst h2
    simp
  | case3 hq => intro b r h; rw [strBody.eq_def] at h; simp [hq] at h
  | case4 cs2 hq => intro b r h; rw [strBody.eq_def] at h; simp [hq] at h
  | case5 d cs2 hd hnone hq ih =>
    intro b r h
    rw [strBody.eq_def] at h
    simp [hq, hd, hnone] at h
  | case6 d cs2 hd body r' hsome hq ih =>
    intro b r h
    rw [strBody.eq_def] at h
    simp [hq, hd, hsome] at h
    obtain ⟨-, h2⟩ := h
    subst h2
    have := ih hsome
    simp
    omega
  | case7 d cs2 hdq hdb hnone ih =>
    intro b r h
    rw [strBody.eq_def] at h
    simp [hdq, hdb, hnone] at h
  | case8 d cs2 hdq hdb body r' hsome ih =>
    intro b r h
    rw [strBody.eq_def] at h
    simp [hdq, hdb, hsome] at h
    obtain ⟨-, h2⟩ := h
    subst h2
    have := ih hsome
    simp
    omega


theorem matchFlag_length : ∀ {cs v r : List Char},
    matchFlag cs = some (v, r) → r.length < cs.length := by
  intro cs v r h
  match cs with
  | [] => cases h
  | c :: cs' =>
    simp only [matchFlag] at h
    split at h
    · match cs', h with
      | [], h => cases h
      | c2 :: cs2, h =>
        simp only at h
        split at h
        · match cs2, h with
          | [], h => cases h
          | c3 :: cs3, h =>
            simp only at h
            split at h
            · cases h
              have := length_dropWhile_le isWordChar cs3
              simp
              omega
            · cases h
        · split at h
          · cases h
            have := length_dropWhile_le isWordChar cs2
            simp
            omega
          · cases h
    · cases h


theorem matchQuoted_length {q : Char} {cs v r : List Char}
    (h : matchQuoted q cs = some (v, r)) : r.length < cs.length := by
  match cs with
  | [] => cases h
  | c :: cs' =>
    simp only [matchQuoted] at h
    split at h
    · have := strBody_length _ h
      simp
      omega
    · cases h


theorem matchCmd_length {cs v r : List Char}
    (h : matchCmd cs = some (v, r)) : r.length < cs.length := by
  match cs with
  | [] => cases h
  | c :: cs' =>
    simp only [matchCmd] at h
    split at h
    · cases h
      have := length_dropWhile_le isCmdChar cs'
      simp
      omega
    · cases h


theorem matchAnd_length {cs r : List Char} (h : matchAnd cs = some r) :
    r.length < cs.length := by
  match cs with
  | [] => cases h
  | c :: cs' =>
    simp only [matchAnd] at h
    split at h
    · match cs', h with
      | [], h => cases h
      | c2 :: cs2, h =>
        simp only at h
        split at h
        · cases h; simp only [List.length_cons]; omega
        · cases h
    · cases h


theorem matchOr_length {cs r : List Char} (h : matchOr cs = some r) :
    r.length < cs.length := by
  match cs with
  | [] => cases h
  | c :: cs' =>
    simp only [matchOr] at h
    split at h
    · match cs', h with
      | [], h => cases h
      | c2 :: cs2, h =>
        simp only at h
        split at h
        · cases h; simp only [List.length_cons]; omega
        · cases h
    · cases h


theorem matchSemi_length {cs r : List Char} (h : matchSemi cs = some r) :
    r.length < cs.length := by
  match cs with
  | [] => cases h
  | c :: cs' =>
    simp only [matchSemi] at h
    split at h
    · cases h; simp only [List.length_cons]; omega
    · cases h


theorem nextStep_rest_length {cs r : List Char} (hcs : cs ≠ [])
    (h : (nextStep cs).rest = some r) : r.length < cs.length := by
  unfold nextStep at h
  cases hw : matchWs cs with
  | some r' =>
    rw [hw] at h; cases h; exact matchWs_length hw
  | none =>
  rw [hw] at h
  cases ha : matchAnd cs with
  | some r' => rw [ha] at h; cases h; exact matchAnd_length ha
  | none =>
  rw [ha] at h
  cases ho : matchOr cs with
  | some r' => rw [ho] at h; cases h; exact matchOr_length ho
  | none =>
  rw [ho] at h
  cases hs : matchSemi cs with
  | some r' => rw [hs] at h; cases h; exact matchSemi_length hs
  | none =>
  rw [hs] at h
  cases hf : matchFlag cs with
  | some vr => obtain ⟨v, r'⟩ := vr; rw [hf] at h; cases h; exact matchFlag_length hf
  | none =>
  rw [hf] at h
  cases hq : matchQuoted '"' cs with
  | some vr => obtain ⟨v, r'⟩ := vr; rw [hq] at h; cases h; exact matchQuoted_length hq
  | none =>
  rw [hq] at h
  cases hq2 : matchQuoted '\'' cs with
  | some vr => obtain ⟨v, r'⟩ := vr; rw [hq2] at h; cases h; exact matchQuoted_length hq2
  | none =>
  rw [hq2] at h
  cases hc : matchCmd cs with
  | some vr => obtain ⟨v, r'⟩ := vr; rw [hc] at h; cases h; exact matchCmd_length hc
  | none =>
  rw [hc] at h
  clear hw ha ho hs hf hq hq2 hc
  cases cs with
  | nil => exact absurd rfl hcs
  | cons c cs' => simp [Step.rest] at h


/-- The fuel argument of `scanGo` is irrelevant as long as it is at
least the length of the remaining input: each master-pattern match
consumes at least one character. -/
theorem scanGo_congr : ∀ (f1 f2 : Nat) (cs : List Char) (pos : Nat),
    cs.length ≤ f1 → cs.length ≤ f2 → scanGo f1 cs pos = scanGo f2 cs pos := by
  intro f1
  induction f1 using Nat.strong_induction_on with
  | _ f1 ih =>
    intro f2 cs pos h1 h2
    match f1, cs, f2 with
    | 0, [], 0 => rfl
    | 0, [], _ + 1 => rfl
    | _ + 1, [], 0 => rfl
    | _ + 1, [], _ + 1 => rfl
    | g1 + 1, c :: cs', g2 + 1 =>
      simp only [scanGo]
      cases hs : nextStep (c :: cs') with
      | ws rest =>
        have hr : rest.length < (c :: cs').length :=
          nextStep_rest_length (List.cons_ne_nil _ _) (by rw [hs]; rfl)
        simp only [List.length_cons] at h1 h2 hr
        exact ih g1 (by omega) g2 _ _ (by omega) (by omega)
      | tok t rest =>
        have hr : rest.length < (c :: cs').length :=
          nextStep_rest_length (List.cons_ne_nil _ _) (by rw [hs]; rfl)
        simp only [List.length_cons] at h1 h2 hr
        have heq := ih g1 (by omega) g2 rest (pos + ((c :: cs').length - rest.length))
          (by omega) (by omega)
        simp only [heq]
      | bad ch => rfl


/-- Unfolding rule for `scanTokens` on non-empty input: the scan loop
applies the master pattern once and recurses on the rest. -/
theorem scanTokens_cons (c : Char) (cs : List Char) (pos : Nat) :
    scanTokens (c :: cs) pos =
      match nextStep (c :: cs) with
      | Step.ws rest => scanTokens rest (pos + ((c :: cs).length - rest.length))
      | Step.tok t rest =>
        let res := scanTokens rest (pos + ((c :: cs).length - rest.length))
        (t :: res.1, res.2)
      | Step.bad ch => ([], some (ch, pos)) := by
  show scanGo ((c :: cs).length) (c :: cs) pos = _
  simp only [List.length_cons, scanGo, scanTokens]
  cases hs : nextStep (c :: cs) with
  | ws rest =>
    have hr : rest.length < (c :: cs).length :=
      nextStep_rest_length (List.cons_ne_nil _ _) (by rw [hs]; rfl)
    simp only [List.length_cons] at hr
    exact scanGo_congr _ _ _ _ (by omega) le_rfl
  | tok t rest =>
    have hr : rest.length < (c :: cs).length :=
      nextStep_rest_length (List.cons_ne_nil _ _) (by rw [hs]; rfl)
    simp only [List.length_cons] at hr
    have heq := scanGo_congr cs.length rest.length rest
      (pos + ((c :: cs).length - rest.length)) (by omega) le_rfl
    simp only [List.length_cons] at heq
    simp only [heq]
  | bad ch => rfl


theorem scanTokens_nil (pos : Nat) : scanTokens [] pos = ([], none) := rfl


theorem argsGo_congr : ∀ (f1 f2 : Nat) (ts : List Token) args kwargs,
    ts.length ≤ f1 → ts.length ≤ f2 →
    argsGo f1 ts args kwargs = argsGo f2 ts args kwargs := by
  intro f1
  induction f1 with
  | zero =>
    intro f2 ts args kwargs h1 h2
    have hts : ts = [] := List.length_eq_zero.mp (Nat.le_zero.mp h1)
    subst hts
    cases f2 with
    | zero => rfl
    | succ g2 => rfl
  | succ g1 ih =>
    intro f2 ts args kwargs h1 h2
    cases ts with
    | nil =>
      cases f2 with
      | zero => rfl
      | succ g2 => rfl
    | cons t ts' =>
      cases f2 with
      | zero => simp at h2
      | succ g2 =>
        simp only [List.length_cons, Nat.succ_le_succ_iff] at h1 h2
        simp only [argsGo]
        repeat' split
        all_goals try rfl
        all_goals apply ih g2 <;> (try simp only [List.length_cons] at h1 h2 ⊢) <;> omega


theorem argsLoop_nil (args : List String) (kwargs : List (String × ArgVal)) :
    argsLoop [] args kwargs = (args, kwargs, []) := rfl


/-- One-step unfolding of the argument loop, mirroring one iteration
of the `while` loop of `Parser.parse_command`. -/
theorem argsLoop_cons (t : Token) (ts : List Token) (args : List String)
    (kwargs : List (String × ArgVal)) :
    argsLoop (t :: ts) args kwargs =
      (if stopTok t.type then (args, kwargs, t :: ts)
      else if t.type = TokType.FLAG then
        let flag := lstripDash t.value
        if hasEq flag then
          let kv := splitEq flag
          argsLoop ts args (dictInsert kv.1 (ArgVal.str kv.2) kwargs)
        else
          match ts with
          | t2 :: ts2 =>
            if t2.type = TokType.COMMAND || t2.type = TokType.STRING then
              argsLoop ts2 args (dictInsert flag (ArgVal.str t2.value) kwargs)
            else
              argsLoop (t2 :: ts2) args (dictInsert flag (ArgVal.bool true) kwargs)
          | [] => (args, dictInsert flag (ArgVal.bool true) kwargs, [])
      else if t.type = TokType.COMMAND || t.type = TokType.STRING then
        if hasEq t.value then
          let kv := splitEq t.value
          argsLoop ts args (dictInsert kv.1 (ArgVal.str kv.2) kwargs)
        else
          argsLoop ts (args ++ [t.value]) kwargs
      else (args, kwargs, t :: ts)) := by
  show (if stopTok t.type then (args, kwargs, t :: ts)
      else if t.type = TokType.FLAG then
        let flag := lstripDash t.value
        if hasEq flag then
          let kv := splitEq flag
          argsGo ts.length ts args (dictInsert kv.1 (ArgVal.str kv.2) kwargs)
        else
          match ts with
          | t2 :: ts2 =>
            if t2.type = TokType.COMMAND || t2.type = TokType.STRING then
              argsGo ts.length ts2 args (dictInsert flag (ArgVal.str t2.value) kwargs)
            else
              argsGo ts.length (t2 :: ts2) args (dictInsert flag (ArgVal.bool true) kwargs)
          | [] => (args, dictInsert flag (ArgVal.bool true) kwargs, [])
      else if t.type = TokType.COMMAND || t.type = TokType.STRING then
        if hasEq t.value then
          let kv := splitEq t.value
          argsGo ts.length ts args (dictInsert kv.1 (ArgVal.str kv.2) kwargs)
        else
          argsGo ts.length ts (args ++ [t.value]) kwargs
      else (args, kwargs, t :: ts)) = _
  repeat' split
  all_goals try dsimp only
  all_goals repeat' split
  all_goals try rfl
  all_goals (apply argsGo_congr <;> (try simp only [List.length_cons]) <;> omega)


theorem argsGo_rest_length : ∀ (f : Nat) (ts : List Token) args kwargs,
    (argsGo f ts args kwargs).2.2.length ≤ ts.length := by
  intro f
  induction f with
  | zero => intro ts args kwargs; simp [argsGo]
  | succ g ih =>
    intro ts args kwargs
    cases ts with
    | nil => simp [argsGo]
    | cons t ts' =>
      simp only [argsGo]
      repeat' split
      all_goals try simp
      all_goals
        refine le_trans (ih _ _ _) ?_
      all_goals (try simp only [List.length_cons])
      all_goals omega


theorem argsLoop_rest_length (ts : List Token) (args : List String)
    (kwargs : List (String × ArgVal)) :
    (argsLoop ts args kwargs).2.2.length ≤ ts.length :=
  argsGo_rest_length ts.length ts args kwargs



theorem parse_command_rest_length {ts : List Token} {cd : CmdDict} {rest : List Token}
    (h : parse_command ts = Except.ok (cd, rest)) : rest.length < ts.length := by
  unfold parse_command at h
  dsimp only at h
  split at h
  · cases h
    rename_i hc
    cases ts with
    | nil => cases hc
    | cons t ts' =>
      calc (argsLoop (t :: ts').tail [] []).2.2.length
          ≤ ts'.length := argsLoop_rest_length ts' [] []
        _ < (t :: ts').length := by simp
  · cases h


theorem parse_chain_rest_length {ts : List Token} {ch : Chain} {rest : List Token}
    (h : parse_chain ts = Except.ok (ch, rest)) : rest.length < ts.length := by
  unfold parse_chain at h
  cases hp : parse_command ts with
  | error e => rw [hp] at h; cases h
  | ok p =>
    obtain ⟨cd, r⟩ := p
    rw [hp] at h
    cases h
    exact parse_command_rest_length hp


theorem parseGo_congr : ∀ (f1 f2 : Nat) (ts : List Token),
    ts.length ≤ f1 → ts.length ≤ f2 → parseGo f1 ts = parseGo f2 ts := by
  intro f1
  induction f1 with
  | zero =>
    intro f2 ts h1 h2
    have hts : ts = [] := List.length_eq_zero.mp (Nat.le_zero.mp h1)
    subst hts
    cases f2 with
    | zero => rfl
    | succ g2 => rfl
  | succ g1 ih =>
    intro f2 ts h1 h2
    cases f2 with
    | zero =>
      have hts : ts = [] := List.length_eq_zero.mp (Nat.le_zero.mp h2)
      subst hts
      rfl
    | succ g2 =>
      simp only [parseGo]
      split
      · rfl
      · cases hp : parse_chain ts with
        | error e => rfl
        | ok p =>
          obtain ⟨chain, rest⟩ := p
          have hr : rest.length < ts.length := parse_chain_rest_length hp
          have hr2 : (if sepTok (curTok rest).type then rest.tail else rest).length ≤
              rest.length := by
            split
            · rw [List.length_tail]; omega
            · exact le_rfl
          dsimp only
          rw [ih g2 _ (by omega) (by omega)]


/-- One-step unfolding of `parse`, mirroring one round of the `while`
loop of `Parser.parse`. -/
theorem parse_eq (ts : List Token) :
    parse ts =
      (if (curTok ts).type = TokType.EOF then Except.ok []
      else
        match parse_chain ts with
        | Except.error e => Except.error e
        | Except.ok (chain, rest) =>
          match parse (if sepTok (curTok rest).type then rest.tail else rest) with
          | Except.error e => Except.error e
          | Except.ok cs => Except.ok (chain :: cs)) := by
  cases ts with
  | nil => rfl
  | cons t ts' =>
    show parseGo (ts'.length + 1) (t :: ts') = _
    simp only [parseGo]
    split
    · rfl
    · cases hp : parse_chain (t :: ts') with
      | error e => rfl
      | ok p =>
        obtain ⟨chain, rest⟩ := p
        have hr : rest.length < (t :: ts').length := parse_chain_rest_length hp
        simp only [List.length_cons] at hr
        have hr2 : (if sepTok (curTok rest).type then rest.tail else rest).length ≤
            rest.length := by
          split
          · rw [List.length_tail]; omega
          · exact le_rfl
        dsimp only
        rw [parseGo_congr ts'.length
          (if sepTok (curTok rest).type then rest.tail else rest).length _ (by omega) le_rfl]
        rfl


/-! ## Claims -/

/-- C1: the specification expects `cmd --opt=value pos1` to tokenize
and parse into one chain with name `"cmd"`, named arguments
`{"opt": "value"}` and positional arguments `["pos1"]`.  The code does
not do this: the FLAG pattern `--?\w+` cannot cover `=`, so the match
at position 4 stops after `--opt`, and at position 9 the character
`'='` is matched only by the MISMATCH pattern — tokenization raises a
`SyntaxError` and parsing never runs.  The parser's own
flag-splitting branch (`if "=" in flag`) is unreachable through this
tokenizer, which marks the tokenizer as the slip. -/
theorem C1_opt_eq_value_is_lexical_error :
    parseLine "cmd --opt=value pos1" = Except.error (LineError.lex '=' 9) ∧
    tokenize "cmd --opt=value pos1" =
      ([⟨TokType.COMMAND, "cmd"⟩, ⟨TokType.FLAG, "--opt"⟩], some ('=', 9)) :=
  ⟨rfl, rfl⟩


/-- C2 counterexample: tokenizing `echo hello --flag` does **not**
yield a Flag token whose literal is `"flag"` — the tokenizer yields
the raw match `"--flag"`; the dash markers are only stripped later by
the parser (`lstrip("-")` in `parse_command`). -/
theorem C2_flag_literal_counterexample :
    ¬ (tokenize "echo hello --flag" =
      ([⟨TokType.COMMAND, "echo"⟩, ⟨TokType.COMMAND, "hello"⟩,
        ⟨TokType.FLAG, "flag"⟩, ⟨TokType.EOF, ""⟩], none)) := by
  decide


/-- C2 amended: tokenizing `echo hello --flag` yields exactly
Command("echo"), Command("hello"), Flag("--flag") — dash markers
retained by the tokenizer, stripped later by the parser — and
EndOfInput, with no Whitespace tokens in the yielded sequence. -/
theorem C2_tokenize_echo_hello_flag :
    tokenize "echo hello --flag" =
      ([⟨TokType.COMMAND, "echo"⟩, ⟨TokType.COMMAND, "hello"⟩,
        ⟨TokType.FLAG, "--flag"⟩, ⟨TokType.EOF, ""⟩], none) ∧
    ∀ t ∈ (tokenize "echo hello --flag").1, t.type ≠ TokType.WHITESPACE := by
  exact ⟨rfl, by decide⟩


/-- C3: when alias resolution plus module lookup finds no plugin,
`execute_command` raises `ModuleNotFoundError("Command not found: …")`
which propagates to the caller; it never returns a boolean (in
particular not `false`) for this condition — the `return False` after
the `raise` is dead code. -/
theorem C3_command_not_found_raises :
    ∀ (ex : Executor) (chain : Chain),
    ex.modules (pyLower (resolve_alias ex chain.cmd)) = Option.none →
    execute_command ex chain =
      ExecOutcome.raised ("Command not found: " ++ resolve_alias ex chain.cmd) ∧
    ∀ b printed, execute_command ex chain ≠ ExecOutcome.returned b printed := by
  intro ex chain h
  have key : execute_command ex chain =
      ExecOutcome.raised ("Command not found: " ++ resolve_alias ex chain.cmd) := by
    unfold execute_command
    dsimp only
    rw [h]
  exact ⟨key, by intro b printed hc; rw [key] at hc; cases hc⟩


theorem C3_witness :
    execute_command (Executor.mk [] true (fun _ => Option.none))
        ⟨some "COMMAND", "echo", [], []⟩ =
      ExecOutcome.raised "Command not found: echo" :=
  (C3_command_not_found_raises (Executor.mk [] true (fun _ => Option.none))
    ⟨some "COMMAND", "echo", [], []⟩ rfl).1


/-- C4: with a plugin found and not feature-gated, `execute_command`
returns `true` (with no failure message) exactly when the plugin's
`execute` returns the integer `0`; any other returned value produces
`false` with exactly one diagnostic message (a one-element printed
list — and the single call to `execute` in the equation shows there is
no retry); an exception from the invocation is caught and converted to
`false` with one error message, and the call never raises. -/
theorem C4_plugin_outcome_classification :
    ∀ (ex : Executor) (chain : Chain) (c : CommandClass),
    ex.modules (pyLower (resolve_alias ex chain.cmd)) = Option.some (Option.some c) →
    (c.isFun && !ex.fun_commands) = false →
    ((execute_command ex chain = ExecOutcome.returned true [] ↔
        c.execute chain.args chain.kwargs = Except.ok (PyVal.int 0)) ∧
     (∀ v, c.execute chain.args chain.kwargs = Except.ok v → v ≠ PyVal.int 0 →
        execute_command ex chain = ExecOutcome.returned false
          ["Command '" ++ resolve_alias ex chain.cmd ++ "' failed with exit code " ++ pyStr v]) ∧
     (∀ e, c.execute chain.args chain.kwargs = Except.error e →
        execute_command ex chain = ExecOutcome.returned false
          ["Error running command '" ++ resolve_alias ex chain.cmd ++ "': " ++ e]) ∧
     (∀ m, execute_command ex chain ≠ ExecOutcome.raised m)) := by
  intro ex chain c hmod hgate
  have key : execute_command ex chain =
      match c.execute chain.args chain.kwargs with
      | Except.error e =>
        ExecOutcome.returned false
          ["Error running command '" ++ resolve_alias ex chain.cmd ++ "': " ++ e]
      | Except.ok result =>
        if pyNeZero result then
          ExecOutcome.returned false
            ["Command '" ++ resolve_alias ex chain.cmd ++ "' failed with exit code " ++ pyStr result]
        else ExecOutcome.returned true [] := by
    unfold execute_command
    dsimp only
    rw [hmod]
    dsimp only
    rw [hgate]
    simp only [Bool.false_eq_true, if_false]
  refine ⟨?_, ?_, ?_, ?_⟩
  · rw [key]
    cases hexec : c.execute chain.args chain.kwargs with
    | error e => simp
    | ok v =>
      cases hv : pyNeZero v with
      | true => simp [hv]; intro h; subst h; simp [pyNeZero] at hv
      | false =>
        simp [hv]
        cases v with
        | int n => simp [pyNeZero] at hv; simp [hv]
        | none => simp [pyNeZero] at hv
        | str s => simp [pyNeZero] at hv
  · intro v hexec hv
    rw [key, hexec]
    have : pyNeZero v = true := by
      cases v with
      | int n => simp [pyNeZero]; intro h; subst h; exact absurd rfl hv
      | none => rfl
      | str s => rfl
    simp [this]
  · intro e hexec
    rw [key, hexec]
  · intro m hc
    rw [key] at hc
    cases hexec : c.execute chain.args chain.kwargs with
    | error e => rw [hexec] at hc; dsimp only at hc; cases hc
    | ok v =>
      rw [hexec] at hc
      dsimp only at hc
      split at hc <;> cases hc


theorem C4_witness :
    execute_command
        (Executor.mk [] true
          (fun _ => Option.some (Option.some
            ⟨false, fun _ _ => Except.ok (PyVal.int 0)⟩)))
        ⟨some "COMMAND", "echo", ["x"], []⟩ =
      ExecOutcome.returned true [] :=
  (C4_plugin_outcome_classification _ _
    ⟨false, fun _ _ => Except.ok (PyVal.int 0)⟩ rfl rfl).1.mpr rfl


/-- C6: a plugin whose metadata marks it as a fun command is skipped
entirely when the `fun_commands` feature flag is off:
`execute_command` prints the warning and returns `true`.  The second
conjunct shows the plugin's `execute` is never invoked: the outcome
does not depend on the `execute` function at all. -/
theorem C6_fun_gating_skips_execution :
    (∀ (ex : Executor) (chain : Chain) (c : CommandClass),
      ex.modules (pyLower (resolve_alias ex chain.cmd)) = Option.some (Option.some c) →
      c.isFun = true → ex.fun_commands = false →
      execute_command ex chain = ExecOutcome.returned true [funWarning]) ∧
    (∀ (aliases : List (String × String)) (chain : Chain)
      (g1 g2 : List String → List (String × ArgVal) → Except String PyVal),
      execute_command ⟨aliases, false, fun _ => Option.some (Option.some ⟨true, g1⟩)⟩ chain =
      execute_command ⟨aliases, false, fun _ => Option.some (Option.some ⟨true, g2⟩)⟩ chain) := by
  constructor
  · intro ex chain c hmod hfun hflag
    unfold execute_command
    dsimp only
    rw [hmod]
    dsimp only
    rw [hfun, hflag]
    rfl
  · intro aliases chain g1 g2
    rfl


theorem C6_witness :
    execute_command
        (Executor.mk [] false
          (fun _ => Option.some (Option.some
            ⟨true, fun _ _ => Except.ok (PyVal.int 1)⟩)))
        ⟨some "COMMAND", "headsortails", [], []⟩ =
      ExecOutcome.returned true [funWarning] :=
  C6_fun_gating_skips_execution.1
    (Executor.mk [] false
      (fun _ => Option.some (Option.some ⟨true, fun _ _ => Except.ok (PyVal.int 1)⟩)))
    ⟨some "COMMAND", "headsortails", [], []⟩
    ⟨true, fun _ _ => Except.ok (PyVal.int 1)⟩ rfl rfl rfl


/-- C10: with a plugin found and not gated, whose `execute` completes
with value `v`, `execute_command` reports success exactly when `v`
equals the integer `0` under Python's `!=` (so for every other value —
a nonzero integer, a string, or `None` — it returns `false` together
with a failure diagnostic). -/
theorem C10_success_only_for_zero :
    ∀ (ex : Executor) (chain : Chain) (c : CommandClass) (v : PyVal),
    ex.modules (pyLower (resolve_alias ex chain.cmd)) = Option.some (Option.some c) →
    (c.isFun && !ex.fun_commands) = false →
    c.execute chain.args chain.kwargs = Except.ok v →
    ((∃ printed, execute_command ex chain = ExecOutcome.returned true printed) ↔
        v = PyVal.int 0) ∧
    (v ≠ PyVal.int 0 →
      execute_command ex chain = ExecOutcome.returned false
        ["Command '" ++ resolve_alias ex chain.cmd ++ "' failed with exit code " ++ pyStr v]) := by
  intro ex chain c v hmod hgate hexec
  have key : execute_command ex chain =
      if pyNeZero v then
        ExecOutcome.returned false
          ["Command '" ++ resolve_alias ex chain.cmd ++ "' failed with exit code " ++ pyStr v]
      else ExecOutcome.returned true [] := by
    unfold execute_command
    dsimp only
    rw [hmod]
    dsimp only
    rw [hgate]
    simp only [Bool.false_eq_true, if_false]
    rw [hexec]
  have hzero : pyNeZero v = false ↔ v = PyVal.int 0 := by
    cases v with
    | int n =>
      simp [pyNeZero]
    | none => simp [pyNeZero]
    | str s => simp [pyNeZero]
  constructor
  · constructor
    · rintro ⟨printed, hp⟩
      rw [key] at hp
      by_cases hv : pyNeZero v
      · rw [if_pos hv] at hp; cases hp
      · exact hzero.mp (Bool.not_eq_true _ ▸ by simpa using hv)
    · intro hv
      refine ⟨[], ?_⟩
      rw [key, if_neg ?_]
      rw [Bool.not_eq_true]
      exact hzero.mpr hv
  · intro hv
    rw [key, if_pos ?_]
    cases hb : pyNeZero v
    · exact absurd (hzero.mp hb) hv
    · rfl


theorem C10_witness :
    execute_command
        (Executor.mk [] true
          (fun _ => Option.some (Option.some
            ⟨false, fun _ _ => Except.ok PyVal.none⟩)))
        ⟨some "COMMAND", "clear", [], []⟩ =
      ExecOutcome.returned false
        ["Command 'clear' failed with exit code None"] :=
  (C10_success_only_for_zero _ _ ⟨false, fun _ _ => Except.ok PyVal.none⟩
    PyVal.none rfl rfl rfl).2 (by decide)


/-- C5: the `run` loop.  The four conjuncts state: (1) running the
empty chain sequence returns the default status `True` with no output;
(2) the loop returns the carried status when the chains are exhausted,
so the result is the status of the last executed chain (earlier
results are overwritten, never aggregated); (3) a chain whose tag is
not `"COMMAND"` is skipped with one diagnostic and leaves the carried
status unchanged; (4) a `"COMMAND"`-tagged chain (also when the tag
key is absent) is executed in encounter order and the loop continues
on the remaining chains with its status — regardless of whether that
status is a failure, so there is no short-circuiting. -/
theorem C5_run_loop_semantics :
    (∀ ex : Executor, run ex [] = Except.ok (true, [])) ∧
    (∀ (ex : Executor) (last : Bool), runChains ex [] last = Except.ok (last, [])) ∧
    (∀ (ex : Executor) (chain : Chain) (rest : List Chain) (last : Bool),
      chain.type.getD "COMMAND" ≠ "COMMAND" →
      runChains ex (chain :: rest) last =
        (runChains ex rest last).map
          (fun p => (p.1, ("Unsupported chain type: " ++ chain.type.getD "COMMAND") :: p.2))) ∧
    (∀ (ex : Executor) (chain : Chain) (rest : List Chain) (last b : Bool)
      (printed : List String),
      chain.type.getD "COMMAND" = "COMMAND" →
      execute_command ex chain = ExecOutcome.returned b printed →
      runChains ex (chain :: rest) last =
        (runChains ex rest b).map (fun p => (p.1, printed ++ p.2))) := by
  refine ⟨fun ex => rfl, fun ex last => rfl, ?_, ?_⟩
  · intro ex chain rest last htype
    have step : runChains ex (chain :: rest) last =
        (if chain.type.getD "COMMAND" = "COMMAND" then
          match execute_command ex chain with
          | ExecOutcome.raised m => Except.error m
          | ExecOutcome.returned b printed =>
            match runChains ex rest b with
            | Except.error m => Except.error m
            | Except.ok (s, ms) => Except.ok (s, printed ++ ms)
        else
          match runChains ex rest last with
          | Except.error m => Except.error m
          | Except.ok (s, ms) =>
            Except.ok (s, ("Unsupported chain type: " ++ chain.type.getD "COMMAND") :: ms)) :=
      rfl
    rw [step, if_neg htype]
    cases hr : runChains ex rest last with
    | error m => rfl
    | ok p => obtain ⟨s, ms⟩ := p; rfl
  · intro ex chain rest last b printed htype hexec
    have step : runChains ex (chain :: rest) last =
        (if chain.type.getD "COMMAND" = "COMMAND" then
          match execute_command ex chain with
          | ExecOutcome.raised m => Except.error m
          | ExecOutcome.returned b printed =>
            match runChains ex rest b with
            | Except.error m => Except.error m
            | Except.ok (s, ms) => Except.ok (s, printed ++ ms)
        else
          match runChains ex rest last with
          | Except.error m => Except.error m
          | Except.ok (s, ms) =>
            Except.ok (s, ("Unsupported chain type: " ++ chain.type.getD "COMMAND") :: ms)) :=
      rfl
    rw [step, if_pos htype, hexec]
    dsimp only
    cases hr : runChains ex rest b with
    | error m => rfl
    | ok p => obtain ⟨s, ms⟩ := p; rfl


theorem C5_witness :
    run (Executor.mk [] true (fun _ => Option.none)) [] = Except.ok (true, []) ∧
    runChains (Executor.mk [] true (fun _ => Option.none)) [] false =
      Except.ok (false, []) ∧
    runChains (Executor.mk [] true
        (fun _ => Option.some (Option.some ⟨false, fun _ _ => Except.ok (PyVal.int 0)⟩)))
        [⟨some "PIPELINE", "x", [], []⟩] false =
      (runChains (Executor.mk [] true
        (fun _ => Option.some (Option.some ⟨false, fun _ _ => Except.ok (PyVal.int 0)⟩)))
        [] false).map
        (fun p => (p.1, ("Unsupported chain type: " ++ "PIPELINE") :: p.2)) ∧
    runChains (Executor.mk [] true
        (fun _ => Option.some (Option.some ⟨false, fun _ _ => Except.ok (PyVal.int 0)⟩)))
        [⟨some "COMMAND", "echo", [], []⟩] false =
      (runChains (Executor.mk [] true
        (fun _ => Option.some (Option.some ⟨false, fun _ _ => Except.ok (PyVal.int 0)⟩)))
        [] true).map (fun p => (p.1, [] ++ p.2)) :=
  ⟨C5_run_loop_semantics.1 _,
   C5_run_loop_semantics.2.1 _ false,
   C5_run_loop_semantics.2.2.1 _ ⟨some "PIPELINE", "x", [], []⟩ [] false (by decide),
   C5_run_loop_semantics.2.2.2 _ ⟨some "COMMAND", "echo", [], []⟩ [] false true [] (by decide) rfl⟩


/-! ### Lemmas on the shape of scanner tokens and parsed chains -/

theorem nextStep_tok_spec : ∀ {cs : List Char} {t : Token} {rest : List Char},
    nextStep cs = Step.tok t rest →
    t.type ≠ TokType.EOF ∧ t.type ≠ TokType.WHITESPACE ∧ t.type ≠ TokType.MISMATCH ∧
    (t.type = TokType.COMMAND → t.value ≠ "") := by
  intro cs t rest h
  unfold nextStep at h
  cases hw : matchWs cs with
  | some r => rw [hw] at h; cases h
  | none =>
  rw [hw] at h
  cases ha : matchAnd cs with
  | some r =>
    rw [ha] at h; cases h
    exact ⟨(by intro h2; cases h2), (by intro h2; cases h2), (by intro h2; cases h2),
      (by intro h2; cases h2)⟩
  | none =>
  rw [ha] at h
  cases ho : matchOr cs with
  | some r =>
    rw [ho] at h; cases h
    exact ⟨(by intro h2; cases h2), (by intro h2; cases h2), (by intro h2; cases h2),
      (by intro h2; cases h2)⟩
  | none =>
  rw [ho] at h
  cases hs : matchSemi cs with
  | some r =>
    rw [hs] at h; cases h
    exact ⟨(by intro h2; cases h2), (by intro h2; cases h2), (by intro h2; cases h2),
      (by intro h2; cases h2)⟩
  | none =>
  rw [hs] at h
  cases hf : matchFlag cs with
  | some vr =>
    obtain ⟨v, r⟩ := vr; rw [hf] at h; cases h
    exact ⟨(by intro h2; cases h2), (by intro h2; cases h2), (by intro h2; cases h2),
      (by intro h2; cases h2)⟩
  | none =>
  rw [hf] at h
  cases hq : matchQuoted '"' cs with
  | some vr =>
    obtain ⟨v, r⟩ := vr; rw [hq] at h; cases h
    exact ⟨(by intro h2; cases h2), (by intro h2; cases h2), (by intro h2; cases h2),
      (by intro h2; cases h2)⟩
  | none =>
  rw [hq] at h
  cases hq2 : matchQuoted '\'' cs with
  | some vr =>
    obtain ⟨v, r⟩ := vr; rw [hq2] at h; cases h
    exact ⟨(by intro h2; cases h2), (by intro h2; cases h2), (by intro h2; cases h2),
      (by intro h2; cases h2)⟩
  | none =>
  rw [hq2] at h
  cases hc : matchCmd cs with
  | some vr =>
    obtain ⟨v, r⟩ := vr; rw [hc] at h; cases h
    refine ⟨(by intro h2; cases h2), (by intro h2; cases h2), (by intro h2; cases h2),
      fun _ => ?_⟩
    match cs, hc with
    | c :: cs', hc =>
      simp only [matchCmd] at hc
      split at hc
      · cases hc
        intro hemp
        have hd := congrArg String.data hemp
        simp at hd
      · cases hc
  | none =>
  rw [hc] at h
  cases cs with
  | nil => cases h
  | cons c cs' => cases h


theorem scanGo_tok_spec : ∀ (f : Nat) (cs : List Char) (pos : Nat) (t : Token),
    t ∈ (scanGo f cs pos).1 →
    t.type ≠ TokType.EOF ∧ t.type ≠ TokType.WHITESPACE ∧ t.type ≠ TokType.MISMATCH ∧
    (t.type = TokType.COMMAND → t.value ≠ "") := by
  intro f
  induction f with
  | zero => intro cs pos t ht; simp [scanGo] at ht
  | succ g ih =>
    intro cs pos t ht
    cases cs with
    | nil => simp [scanGo] at ht
    | cons c cs' =>
      rw [scanGo] at ht
      cases hs : nextStep (c :: cs') with
      | ws rest => rw [hs] at ht; exact ih rest _ t ht
      | tok t2 rest =>
        rw [hs] at ht
        simp only [List.mem_cons] at ht
        cases ht with
        | inl heq => subst heq; exact nextStep_tok_spec hs
        | inr hmem => exact ih rest _ t hmem
      | bad ch => rw [hs] at ht; simp at ht


/-- Every token produced by the scan loop (the tokens before the EOF
token appended by `tokenize`) has a kind the parser can see, and a
COMMAND token always carries a non-empty literal (the pattern
`[a-zA-Z0-9_-]+` matches at least one character). -/
theorem tokenize_tok_spec {text : String} {ts : List Token} {e : Option (Char × Nat)}
    (h : tokenize text = (ts, e)) (t : Token) (ht : t ∈ ts)
    (hne : t.type ≠ TokType.EOF) :
    t.type ≠ TokType.WHITESPACE ∧ t.type ≠ TokType.MISMATCH ∧
    (t.type = TokType.COMMAND → t.value ≠ "") := by
  unfold tokenize at h
  cases hscan : scanTokens text.data 0 with
  | mk ts0 e0 =>
    rw [hscan] at h
    have hscan2 : scanGo text.data.length text.data 0 = (ts0, e0) := hscan
    cases e0 with
    | none =>
      dsimp only at h
      cases h
      rcases List.mem_append.mp ht with hmem | hmem
      · have hspec := scanGo_tok_spec text.data.length text.data 0 t
          (by rw [hscan2]; exact hmem)
        exact ⟨hspec.2.1, hspec.2.2.1, hspec.2.2.2⟩
      · simp at hmem
        rw [hmem] at hne
        exact absurd rfl hne
    | some e1 =>
      dsimp only at h
      cases h
      have hspec := scanGo_tok_spec text.data.length text.data 0 t
        (by rw [hscan2]; exact ht)
      exact ⟨hspec.2.1, hspec.2.2.1, hspec.2.2.2⟩


theorem argsGo_rest_suffix : ∀ (f : Nat) (ts : List Token) args kwargs,
    (argsGo f ts args kwargs).2.2 <:+ ts := by
  intro f
  induction f with
  | zero => intro ts args kwargs; exact List.suffix_refl ts
  | succ g ih =>
    intro ts args kwargs
    cases ts with
    | nil => simp [argsGo]
    | cons t ts' =>
      simp only [argsGo]
      repeat' split
      all_goals try exact List.suffix_refl _
      all_goals try exact List.nil_suffix
      all_goals refine List.IsSuffix.trans (ih _ _ _) ?_
      all_goals first
        | exact List.suffix_cons _ _
        | exact (List.suffix_cons _ _).trans (List.suffix_cons _ _)


theorem parse_command_spec {ts : List Token} {cd : CmdDict} {rest : List Token}
    (h : parse_command ts = Except.ok (cd, rest)) :
    (∃ t ∈ ts, t.type = TokType.COMMAND ∧ cd.cmd = t.value) ∧ rest <:+ ts := by
  unfold parse_command at h
  dsimp only at h
  split at h
  · rename_i htype
    cases h
    cases ts with
    | nil => cases htype
    | cons t ts' =>
      refine ⟨⟨t, List.mem_cons_self t ts', htype, rfl⟩, ?_⟩
      exact ((argsGo_rest_suffix _ _ _ _).trans (List.suffix_cons t ts'))
  · cases h


theorem parse_chain_spec {ts : List Token} {ch : Chain} {rest : List Token}
    (h : parse_chain ts = Except.ok (ch, rest)) :
    ch.type = some "COMMAND" ∧
    (∃ t ∈ ts, t.type = TokType.COMMAND ∧ ch.cmd = t.value) ∧ rest <:+ ts := by
  unfold parse_chain at h
  cases hp : parse_command ts with
  | error e => rw [hp] at h; cases h
  | ok p =>
    obtain ⟨cd, r⟩ := p
    rw [hp] at h
    cases h
    have := parse_command_spec hp
    exact ⟨rfl, this.1, this.2⟩


/-- Every chain of a successful parse is tagged `"COMMAND"` and takes
its name from a COMMAND-kind token of the input sequence. -/
theorem parse_chains_spec_aux : ∀ (n : Nat) (ts : List Token) (chains : List Chain),
    ts.length ≤ n → parse ts = Except.ok chains →
    ∀ ch ∈ chains, ch.type = some "COMMAND" ∧
      ∃ t ∈ ts, t.type = TokType.COMMAND ∧ ch.cmd = t.value := by
  intro n
  induction n with
  | zero =>
    intro ts chains hlen hp ch hch
    have hts : ts = [] := List.length_eq_zero.mp (Nat.le_zero.mp hlen)
    subst hts
    cases hp
    cases hch
  | succ m ihm =>
    intro ts chains hlen hp ch hch
    rw [parse_eq] at hp
    split at hp
    · cases hp
      cases hch
    · cases hpc : parse_chain ts with
      | error e => rw [hpc] at hp; cases hp
      | ok p =>
        obtain ⟨ch1, rest⟩ := p
        rw [hpc] at hp
        dsimp only at hp
        cases hrec : parse (if sepTok (curTok rest).type then rest.tail else rest) with
        | error e => rw [hrec] at hp; cases hp
        | ok cs' =>
          rw [hrec] at hp
          cases hp
          have hspec := parse_chain_spec hpc
          have hr : rest.length < ts.length := parse_chain_rest_length hpc
          cases hch with
          | head => exact ⟨hspec.1, hspec.2.1⟩
          | tail _ hmem =>
            have hsub : (if sepTok (curTok rest).type then rest.tail else rest) <:+ ts := by
              split
              · exact (List.tail_suffix rest).trans hspec.2.2
              · exact hspec.2.2
            have hlen2 : (if sepTok (curTok rest).type then rest.tail else rest).length ≤ m := by
              have htail : rest.tail.length ≤ rest.length := by
                rw [List.length_tail]; omega
              split
              · omega
              · omega
            obtain ⟨htag, t, hmem2, htp, hval⟩ := ihm _ cs' hlen2 hrec ch hmem
            exact ⟨htag, t, hsub.subset hmem2, htp, hval⟩


theorem parse_chains_spec (ts : List Token) (chains : List Chain)
    (hp : parse ts = Except.ok chains) :
    ∀ ch ∈ chains, ch.type = some "COMMAND" ∧
      ∃ t ∈ ts, t.type = TokType.COMMAND ∧ ch.cmd = t.value :=
  parse_chains_spec_aux ts.length ts chains le_rfl hp


/-- C9: for a token sequence on which `parse` succeeds, every chain in
the result is tagged `"COMMAND"` and its name is the literal of a
COMMAND-kind token of the sequence; for sequences produced by the
tokenizer a COMMAND literal is never empty, so every chain of a
successfully tokenized and parsed line has a non-empty command name. -/
theorem C9_chains_command_tagged_nonempty :
    (∀ (ts : List Token) (chains : List Chain),
      parse ts = Except.ok chains →
      ∀ ch ∈ chains, ch.type = some "COMMAND" ∧
        ∃ t ∈ ts, t.type = TokType.COMMAND ∧ ch.cmd = t.value) ∧
    (∀ (text : String) (ts : List Token) (chains : List Chain),
      tokenize text = (ts, none) → parse ts = Except.ok chains →
      ∀ ch ∈ chains, ch.type = some "COMMAND" ∧ ch.cmd ≠ "") := by
  refine ⟨parse_chains_spec, ?_⟩
  intro text ts chains htok hp ch hch
  have hspec := parse_chains_spec ts chains hp ch hch
  obtain ⟨htag, t, hmem, htp, hval⟩ := hspec
  refine ⟨htag, ?_⟩
  rw [hval]
  have := tokenize_tok_spec htok t hmem (by rw [htp]; intro h2; cases h2)
  exact this.2.2 htp


theorem C9_witness :
    parse [⟨TokType.COMMAND, "echo"⟩, ⟨TokType.STRING, "hi"⟩, ⟨TokType.EOF, ""⟩] =
      Except.ok [⟨some "COMMAND", "echo", ["hi"], []⟩] ∧
    (⟨some "COMMAND", "echo", ["hi"], []⟩ : Chain).type = some "COMMAND" ∧
    ∃ t ∈ [⟨TokType.COMMAND, "echo"⟩, ⟨TokType.STRING, "hi"⟩, ⟨TokType.EOF, ""⟩],
      Token.type t = TokType.COMMAND ∧
      (⟨some "COMMAND", "echo", ["hi"], []⟩ : Chain).cmd = t.value := by
  refine ⟨rfl, ?_⟩
  exact C9_chains_command_tagged_nonempty.1
    [⟨TokType.COMMAND, "echo"⟩, ⟨TokType.STRING, "hi"⟩, ⟨TokType.EOF, ""⟩]
    [⟨some "COMMAND", "echo", ["hi"], []⟩] rfl
    ⟨some "COMMAND", "echo", ["hi"], []⟩ (List.mem_singleton.mpr rfl)


/-! ### Lemmas for the lexical-error claim -/

theorem matchWs_rest_suffix {cs r : List Char} (h : matchWs cs = some r) :
    r <:+ cs := by
  match cs with
  | [] => cases h
  | c :: cs' =>
    simp only [matchWs] at h
    split at h
    · cases h
      exact (List.dropWhile_suffix isSpaceChar).trans (List.suffix_cons c cs')
    · cases h


theorem matchAnd_rest_suffix {cs r : List Char} (h : matchAnd cs = some r) :
    r <:+ cs := by
  match cs with
  | [] => cases h
  | c :: cs' =>
    simp only [matchAnd] at h
    split at h
    · match cs', h with
      | [], h => cases h
      | c2 :: cs2, h =>
        simp only at h
        split at h
        · cases h
          exact (List.suffix_cons _ _).trans (List.suffix_cons _ _)
        · cases h
    · cases h


theorem matchOr_rest_suffix {cs r : List Char} (h : matchOr cs = some r) :
    r <:+ cs := by
  match cs with
  | [] => cases h
  | c :: cs' =>
    simp only [matchOr] at h
    split at h
    · match cs', h with
      | [], h => cases h
      | c2 :: cs2, h =>
        simp only at h
        split at h
        · cases h
          exact (List.suffix_cons _ _).trans (List.suffix_cons _ _)
        · cases h
    · cases h


theorem matchSemi_rest_suffix {cs r : List Char} (h : matchSemi cs = some r) :
    r <:+ cs := by
  match cs with
  | [] => cases h
  | c :: cs' =>
    simp only [matchSemi] at h
    split at h
    · cases h
      exact List.suffix_cons _ _
    · cases h


theorem matchFlag_rest_suffix : ∀ {cs v r : List Char},
    matchFlag cs = some (v, r) → r <:+ cs := by
  intro cs v r h
  match cs with
  | [] => cases h
  | c :: cs' =>
    simp only [matchFlag] at h
    split at h
    · match cs', h with
      | [], h => cases h
      | c2 :: cs2, h =>
        simp only at h
        split at h
        · match cs2, h with
          | [], h => cases h
          | c3 :: cs3, h =>
            simp only at h
            split at h
            · cases h
              exact ((List.dropWhile_suffix isWordChar).trans
                (List.suffix_cons c3 cs3)).trans
                ((List.suffix_cons c2 _).trans (List.suffix_cons c _))
            · cases h
        · split at h
          · cases h
            exact ((List.dropWhile_suffix isWordChar).trans
              (List.suffix_cons c2 cs2)).trans (List.suffix_cons c _)
          · cases h
    · cases h


theorem strBody_rest_suffix {q : Char} : ∀ cs {b r : List Char},
    strBody q cs = some (b, r) → r <:+ cs := by
  intro cs
  induction cs using strBody.induct q with
  | case1 => intro b r h; rw [strBody.eq_def] at h; cases h
  | case2 cs2 =>
    intro b r h
    rw [strBody.eq_def] at h
    simp at h
    obtain ⟨-, h2⟩ := h
    subst h2
    exact List.suffix_cons _ _
  | case3 hq => intro b r h; rw [strBody.eq_def] at h; simp [hq] at h
  | case4 cs2 hq => intro b r h; rw [strBody.eq_def] at h; simp [hq] at h
  | case5 d cs2 hd hnone hq ih =>
    intro b r h
    rw [strBody.eq_def] at h
    simp [hq, hd, hnone] at h
  | case6 d cs2 hd body r' hsome hq ih =>
    intro b r h
    rw [strBody.eq_def] at h
    simp [hq, hd, hsome] at h
    obtain ⟨-, h2⟩ := h
    subst h2
    exact ((ih hsome).trans (List.suffix_cons d cs2)).trans (List.suffix_cons _ _)
  | case7 d cs2 hdq hdb hnone ih =>
    intro b r h
    rw [strBody.eq_def] at h
    simp [hdq, hdb, hnone] at h
  | case8 d cs2 hdq hdb body r' hsome ih =>
    intro b r h
    rw [strBody.eq_def] at h
    simp [hdq, hdb, hsome] at h
    obtain ⟨-, h2⟩ := h
    subst h2
    exact (ih hsome).trans (List.suffix_cons d cs2)


theorem matchQuoted_rest_suffix {q : Char} {cs v r : List Char}
    (h : matchQuoted q cs = some (v, r)) : r <:+ cs := by
  match cs with
  | [] => cases h
  | c :: cs' =>
    simp only [matchQuoted] at h
    split at h
    · exact (strBody_rest_suffix cs' h).trans (List.suffix_cons c cs')
    · cases h


theorem matchCmd_rest_suffix {cs v r : List Char}
    (h : matchCmd cs = some (v, r)) : r <:+ cs := by
  match cs with
  | [] => cases h
  | c :: cs' =>
    simp only [matchCmd] at h
    split at h
    · cases h
      exact (List.dropWhile_suffix isCmdChar).trans (List.suffix_cons c cs')
    · cases h


theorem nextStep_rest_suffix {cs r : List Char}
    (h : (nextStep cs).rest = some r) : r <:+ cs := by
  unfold nextStep at h
  cases hw : matchWs cs with
  | some r' => rw [hw] at h; cases h; exact matchWs_rest_suffix hw
  | none =>
  rw [hw] at h
  cases ha : matchAnd cs with
  | some r' => rw [ha] at h; cases h; exact matchAnd_rest_suffix ha
  | none =>
  rw [ha] at h
  cases ho : matchOr cs with
  | some r' => rw [ho] at h; cases h; exact matchOr_rest_suffix ho
  | none =>
  rw [ho] at h
  cases hs : matchSemi cs with
  | some r' => rw [hs] at h; cases h; exact matchSemi_rest_suffix hs
  | none =>
  rw [hs] at h
  cases hf : matchFlag cs with
  | some vr => obtain ⟨v, r'⟩ := vr; rw [hf] at h; cases h; exact matchFlag_rest_suffix hf
  | none =>
  rw [hf] at h
  cases hq : matchQuoted '"' cs with
  | some vr => obtain ⟨v, r'⟩ := vr; rw [hq] at h; cases h; exact matchQuoted_rest_suffix hq
  | none =>
  rw [hq] at h
  cases hq2 : matchQuoted '\'' cs with
  | some vr => obtain ⟨v, r'⟩ := vr; rw [hq2] at h; cases h; exact matchQuoted_rest_suffix hq2
  | none =>
  rw [hq2] at h
  cases hc : matchCmd cs with
  | some vr => obtain ⟨v, r'⟩ := vr; rw [hc] at h; cases h; exact matchCmd_rest_suffix hc
  | none =>
  rw [hc] at h
  cases cs with
  | nil => cases h; exact List.suffix_refl []
  | cons c cs' => cases h


theorem suffix_eq_drop {r cs : List Char} (h : r <:+ cs) :
    r = cs.drop (cs.length - r.length) := by
  obtain ⟨t, rfl⟩ := h
  have hlen : (t ++ r).length - r.length = t.length := by simp
  rw [hlen, List.drop_left]


theorem nextStep_bad_head : ∀ {cs : List Char} {c : Char},
    nextStep cs = Step.bad c → cs.head? = some c := by
  intro cs c h
  unfold nextStep at h
  cases hw : matchWs cs with
  | some r => rw [hw] at h; cases h
  | none =>
  rw [hw] at h
  cases ha : matchAnd cs with
  | some r => rw [ha] at h; cases h
  | none =>
  rw [ha] at h
  cases ho : matchOr cs with
  | some r => rw [ho] at h; cases h
  | none =>
  rw [ho] at h
  cases hs : matchSemi cs with
  | some r => rw [hs] at h; cases h
  | none =>
  rw [hs] at h
  cases hf : matchFlag cs with
  | some vr => obtain ⟨v, r⟩ := vr; rw [hf] at h; cases h
  | none =>
  rw [hf] at h
  cases hq : matchQuoted '"' cs with
  | some vr => obtain ⟨v, r⟩ := vr; rw [hq] at h; cases h
  | none =>
  rw [hq] at h
  cases hq2 : matchQuoted '\'' cs with
  | some vr => obtain ⟨v, r⟩ := vr; rw [hq2] at h; cases h
  | none =>
  rw [hq2] at h
  cases hc : matchCmd cs with
  | some vr => obtain ⟨v, r⟩ := vr; rw [hc] at h; cases h
  | none =>
  rw [hc] at h
  cases cs with
  | nil => cases h
  | cons c' cs' => cases h; rfl


theorem scanGo_err_spec : ∀ (f : Nat) (cs : List Char) (pos : Nat) (ts : List Token)
    (c : Char) (p : Nat),
    scanGo f cs pos = (ts, some (c, p)) →
    ∃ k, p = pos + k ∧ nextStep (cs.drop k) = Step.bad c ∧
      ∀ t ∈ ts, t.type ≠ TokType.EOF := by
  intro f
  induction f with
  | zero => intro cs pos ts c p h; cases h
  | succ g ih =>
    intro cs pos ts c p h
    cases cs with
    | nil => cases h
    | cons ch0 cs' =>
      rw [scanGo] at h
      cases hs : nextStep (ch0 :: cs') with
      | ws rest =>
        rw [hs] at h
        obtain ⟨k', hp, hbad, heof⟩ := ih rest _ ts c p h
        have hsfx : rest <:+ ch0 :: cs' := nextStep_rest_suffix (by rw [hs]; rfl)
        have hdrop : rest = (ch0 :: cs').drop ((ch0 :: cs').length - rest.length) :=
          suffix_eq_drop hsfx
        refine ⟨((ch0 :: cs').length - rest.length) + k', by omega, ?_, heof⟩
        rw [← List.drop_drop, ← hdrop]
        exact hbad
      | tok t rest =>
        rw [hs] at h
        dsimp only at h
        cases hrec : scanGo g rest (pos + ((ch0 :: cs').length - rest.length)) with
        | mk ts2 e2 =>
          rw [hrec] at h
          cases h
          obtain ⟨k', hp, hbad, heof⟩ := ih rest _ ts2 c p hrec
          have hsfx : rest <:+ ch0 :: cs' := nextStep_rest_suffix (by rw [hs]; rfl)
          have hdrop : rest = (ch0 :: cs').drop ((ch0 :: cs').length - rest.length) :=
            suffix_eq_drop hsfx
          refine ⟨((ch0 :: cs').length - rest.length) + k', by omega, ?_, ?_⟩
          · rw [← List.drop_drop, ← hdrop]
            exact hbad
          · intro t2 ht2
            rcases List.mem_cons.mp ht2 with heq | hmem
            · subst heq
              exact (nextStep_tok_spec hs).1
            · exact heof t2 hmem
      | bad ch =>
        rw [hs] at h
        cases h
        exact ⟨0, by omega, by rw [List.drop_zero]; exact hs, by simp⟩


/-- C8: a character on which, at the scanner's position, every pattern
before the catch-all MISMATCH fails (`nextStep` selects `Step.bad`) is
a fatal lexical error: the scan stops immediately at that point,
reporting exactly that character and its zero-based position, and
yields no further tokens.  Conversely, every error reported by
`tokenize` carries the character actually found at the reported
zero-based position of the text, that position is one where only the
mismatch pattern matches, and the tokens yielded before the error
never include EndOfInput. -/
theorem C8_mismatch_fatal :
    (∀ (cs : List Char) (pos : Nat) (c : Char),
      nextStep cs = Step.bad c →
      scanTokens cs pos = ([], some (c, pos)) ∧ cs.head? = some c) ∧
    (∀ (text : String) (ts : List Token) (c : Char) (p : Nat),
      tokenize text = (ts, some (c, p)) →
      (text.data.drop p).head? = some c ∧
      nextStep (text.data.drop p) = Step.bad c ∧
      ∀ t ∈ ts, t.type ≠ TokType.EOF) := by
  constructor
  · intro cs pos c h
    cases cs with
    | nil =>
      have hnil : nextStep [] = Step.ws [] := rfl
      rw [hnil] at h
      cases h
    | cons c0 cs' =>
      refine ⟨?_, nextStep_bad_head h⟩
      rw [scanTokens_cons, h]
  · intro text ts c p h
    unfold tokenize at h
    cases hscan : scanTokens text.data 0 with
    | mk ts0 e0 =>
      have hscan2 : scanGo text.data.length text.data 0 = (ts0, e0) := hscan
      rw [hscan] at h
      cases e0 with
      | none => dsimp only at h; cases h
      | some e1 =>
        dsimp only at h
        cases h
        obtain ⟨k, hp, hbad, heof⟩ := scanGo_err_spec text.data.length text.data 0 ts c p hscan2
        have hk : p = k := by omega
        subst hk
        exact ⟨nextStep_bad_head hbad, hbad, heof⟩


theorem C8_witness :
    ("echo @ hi".data.drop 5).head? = some '@' ∧
    nextStep ("echo @ hi".data.drop 5) = Step.bad '@' ∧
    ∀ t ∈ [Token.mk TokType.COMMAND "echo"], t.type ≠ TokType.EOF :=
  C8_mismatch_fatal.2 "echo @ hi" [⟨TokType.COMMAND, "echo"⟩] '@' 5 rfl


/-! ### Lemmas for the separator-equivalence claim

The separator claim compares the pipelines on `A <sep> B` for the
three separators.  The scan of such a line decomposes: the part of the
line holding `A` scans to `A`'s own tokens because each master-pattern
match of a successful scan is delimited on the right by the space that
precedes the separator. -/

theorem takeWhile_append_space {p : Char → Bool} (hsp : p ' ' = false) :
    ∀ (l r : List Char), (l ++ ' ' :: r).takeWhile p = l.takeWhile p := by
  intro l
  induction l with
  | nil => intro r; simp [List.takeWhile, hsp]
  | cons c l' ih =>
    intro r
    simp only [List.cons_append, List.takeWhile]
    cases hp : p c
    · simp [hp]
    · simp [hp, ih r]


theorem dropWhile_append_space {p : Char → Bool} (hsp : p ' ' = false) :
    ∀ (l r : List Char), (l ++ ' ' :: r).dropWhile p = l.dropWhile p ++ ' ' :: r := by
  intro l
  induction l with
  | nil => intro r; simp [List.dropWhile, hsp]
  | cons c l' ih =>
    intro r
    simp only [List.cons_append, List.dropWhile]
    cases hp : p c
    · simp [hp]
    · simp [hp, ih r]


theorem matchWs_some_append {cs r : List Char} (h : matchWs cs = some r)
    (hr : r ≠ []) (sfx : List Char) :
    matchWs (cs ++ ' ' :: sfx) = some (r ++ ' ' :: sfx) := by
  match cs with
  | [] => cases h
  | c :: cs' =>
    simp only [matchWs] at h
    split at h
    · cases h
      simp only [List.cons_append, matchWs]
      rename_i hc
      rw [if_pos hc, List.dropWhile_append]
      rw [if_neg (by simp only [List.isEmpty_iff]; exact hr)]
    · cases h


theorem matchWs_none_append {cs : List Char} {c : Char} {cs' : List Char}
    (hcs : cs = c :: cs') (h : isSpaceChar c = false) (sfx : List Char) :
    matchWs (cs ++ sfx) = none := by
  subst hcs
  simp only [List.cons_append, matchWs, h]
  rfl


theorem matchAnd_some_inv {cs r : List Char} (h : matchAnd cs = some r) :
    cs = '&' :: '&' :: r := by
  match cs with
  | [] => cases h
  | c :: cs' =>
    simp only [matchAnd] at h
    split at h
    · match cs', h with
      | [], h => cases h
      | c2 :: cs2, h =>
        simp only at h
        split at h
        · cases h
          rename_i h1 h2
          rw [h1, h2]
        · cases h
    · cases h


theorem matchOr_some_inv {cs r : List Char} (h : matchOr cs = some r) :
    cs = '|' :: '|' :: r := by
  match cs with
  | [] => cases h
  | c :: cs' =>
    simp only [matchOr] at h
    split at h
    · match cs', h with
      | [], h => cases h
      | c2 :: cs2, h =>
        simp only at h
        split at h
        · cases h
          rename_i h1 h2
          rw [h1, h2]
        · cases h
    · cases h


theorem matchSemi_some_inv {cs r : List Char} (h : matchSemi cs = some r) :
    cs = ';' :: r := by
  match cs with
  | [] => cases h
  | c :: cs' =>
    simp only [matchSemi] at h
    split at h
    · cases h
      rename_i h1
      rw [h1]
    · cases h


theorem matchAnd_none_head {c : Char} (cs' sfx : List Char) (h : c ≠ '&') :
    matchAnd (c :: cs' ++ sfx) = none := by
  simp only [List.cons_append, matchAnd]
  rw [if_neg h]


theorem matchOr_none_head {c : Char} (cs' sfx : List Char) (h : c ≠ '|') :
    matchOr (c :: cs' ++ sfx) = none := by
  simp only [List.cons_append, matchOr]
  rw [if_neg h]


theorem matchSemi_none_head {c : Char} (cs' sfx : List Char) (h : c ≠ ';') :
    matchSemi (c :: cs' ++ sfx) = none := by
  simp only [List.cons_append, matchSemi]
  rw [if_neg h]


theorem matchAnd_some_append {cs r : List Char} (h : matchAnd cs = some r)
    (sfx : List Char) : matchAnd (cs ++ sfx) = some (r ++ sfx) := by
  rw [matchAnd_some_inv h]
  rfl


theorem matchOr_some_append {cs r : List Char} (h : matchOr cs = some r)
    (sfx : List Char) : matchOr (cs ++ sfx) = some (r ++ sfx) := by
  rw [matchOr_some_inv h]
  rfl


theorem matchSemi_some_append {cs r : List Char} (h : matchSemi cs = some r)
    (sfx : List Char) : matchSemi (cs ++ sfx) = some (r ++ sfx) := by
  rw [matchSemi_some_inv h]
  rfl


theorem matchFlag_some_inv : ∀ {cs v r : List Char},
    matchFlag cs = some (v, r) →
    (∃ c3 cs3, cs = '-' :: '-' :: c3 :: cs3 ∧ isWordChar c3 = true ∧
      v = '-' :: '-' :: c3 :: cs3.takeWhile isWordChar ∧ r = cs3.dropWhile isWordChar) ∨
    (∃ c2 cs2, cs = '-' :: c2 :: cs2 ∧ c2 ≠ '-' ∧ isWordChar c2 = true ∧
      v = '-' :: c2 :: cs2.takeWhile isWordChar ∧ r = cs2.dropWhile isWordChar) := by
  intro cs v r h
  match cs with
  | [] => cases h
  | c :: cs' =>
    simp only [matchFlag] at h
    split at h
    · rename_i hdash
      subst hdash
      match cs', h with
      | [], h => cases h
      | c2 :: cs2, h =>
        simp only at h
        split at h
        · rename_i hdash2
          subst hdash2
          match cs2, h with
          | [], h => cases h
          | c3 :: cs3, h =>
            simp only at h
            split at h
            · rename_i hword
              cases h
              exact Or.inl ⟨c3, cs3, rfl, hword, rfl, rfl⟩
            · cases h
        · rename_i hdash2
          split at h
          · rename_i hword
            cases h
            exact Or.inr ⟨c2, cs2, rfl, hdash2, hword, rfl, rfl⟩
          · cases h
    · cases h


theorem matchFlag_some_append {cs v r : List Char}
    (h : matchFlag cs = some (v, r)) (sfx' : List Char) :
    matchFlag (cs ++ ' ' :: sfx') = some (v, r ++ ' ' :: sfx') := by
  rcases matchFlag_some_inv h with ⟨c3, cs3, rfl, hword, rfl, rfl⟩ |
    ⟨c2, cs2, rfl, hdash2, hword, rfl, rfl⟩
  · simp only [List.cons_append]
    simp [matchFlag, hword,
      takeWhile_append_space (by decide : isWordChar ' ' = false),
      dropWhile_append_space (by decide : isWordChar ' ' = false)]
  · simp only [List.cons_append]
    simp [matchFlag, hdash2, hword,
      takeWhile_append_space (by decide : isWordChar ' ' = false),
      dropWhile_append_space (by decide : isWordChar ' ' = false)]


theorem matchFlag_none_append : ∀ {cs : List Char}, matchFlag cs = none →
    cs ≠ [] → ∀ sfx' : List Char, matchFlag (cs ++ ' ' :: sfx') = none := by
  intro cs h hne sfx'
  match cs with
  | [] => exact absurd rfl hne
  | c :: cs' =>
    by_cases hdash : c = '-'
    · subst hdash
      match cs' with
      | [] =>
        simp only [List.cons_append, List.nil_append, matchFlag]
        simp only [if_true]
        rw [if_neg (by decide : ¬((' ' : Char) = '-'))]
        rw [if_neg (by decide : ¬(isWordChar ' ' = true))]
      | c2 :: cs2 =>
        by_cases hdash2 : c2 = '-'
        · subst hdash2
          match cs2 with
          | [] =>
            simp only [List.cons_append, List.nil_append, matchFlag]
            simp only [if_true]
            rw [if_neg (by decide : ¬(isWordChar ' ' = true))]
          | c3 :: cs3 =>
            cases hword : isWordChar c3 with
            | true => simp [matchFlag, hword] at h
            | false =>
              simp only [List.cons_append, matchFlag]
              simp [hword]
        · cases hword : isWordChar c2 with
          | true => simp [matchFlag, hdash2, hword] at h
          | false =>
            simp only [List.cons_append, matchFlag]
            simp [hdash2, hword]
    · simp only [List.cons_append, matchFlag]
      rw [if_neg hdash]


theorem strBody_some_append {q : Char} : ∀ cs {b r : List Char},
    strBody q cs = some (b, r) → ∀ sfx : List Char,
    strBody q (cs ++ sfx) = some (b, r ++ sfx) := by
  intro cs
  induction cs using strBody.induct q with
  | case1 => intro b r h sfx; rw [strBody.eq_def] at h; cases h
  | case2 cs2 =>
    intro b r h sfx
    rw [strBody.eq_def] at h
    simp at h
    rcases h with ⟨rfl, rfl⟩
    simp only [List.cons_append]
    rw [strBody.eq_def]
    simp
  | case3 hq => intro b r h sfx; rw [strBody.eq_def] at h; simp [hq] at h
  | case4 cs2 hq => intro b r h sfx; rw [strBody.eq_def] at h; simp [hq] at h
  | case5 d cs2 hd hnone hq ih =>
    intro b r h sfx
    rw [strBody.eq_def] at h
    simp [hq, hd, hnone] at h
  | case6 d cs2 hd body r' hsome hq ih =>
    intro b r h sfx
    rw [strBody.eq_def] at h
    simp [hq, hd, hsome] at h
    rcases h with ⟨rfl, rfl⟩
    simp only [List.cons_append]
    rw [strBody.eq_def]
    simp [hq, hd, ih hsome sfx]
  | case7 d cs2 hdq hdb hnone ih =>
    intro b r h sfx
    rw [strBody.eq_def] at h
    simp [hdq, hdb, hnone] at h
  | case8 d cs2 hdq hdb body r' hsome ih =>
    intro b r h sfx
    rw [strBody.eq_def] at h
    simp [hdq, hdb, hsome] at h
    rcases h with ⟨rfl, rfl⟩
    simp only [List.cons_append]
    rw [strBody.eq_def]
    simp [hdq, hdb, ih hsome sfx]


theorem matchQuoted_some_append {q : Char} {cs v r : List Char}
    (h : matchQuoted q cs = some (v, r)) (sfx : List Char) :
    matchQuoted q (cs ++ sfx) = some (v, r ++ sfx) := by
  match cs with
  | [] => cases h
  | c :: cs' =>
    simp only [matchQuoted] at h
    split at h
    · rename_i hq
      simp only [List.cons_append, matchQuoted]
      rw [if_pos hq]
      exact strBody_some_append cs' h sfx
    · cases h


theorem matchQuoted_some_head {q : Char} {cs v r : List Char}
    (h : matchQuoted q cs = some (v, r)) : ∃ cs', cs = q :: cs' := by
  match cs with
  | [] => cases h
  | c :: cs' =>
    simp only [matchQuoted] at h
    split at h
    · rename_i hq
      exact ⟨cs', by rw [hq]⟩
    · cases h


theorem matchQuoted_none_head {q c : Char} (cs' sfx : List Char) (h : c ≠ q) :
    matchQuoted q (c :: cs' ++ sfx) = none := by
  simp only [List.cons_append, matchQuoted]
  rw [if_neg h]


theorem matchCmd_some_inv {cs v r : List Char} (h : matchCmd cs = some (v, r)) :
    ∃ c cs', cs = c :: cs' ∧ isCmdChar c = true ∧
      v = c :: cs'.takeWhile isCmdChar ∧ r = cs'.dropWhile isCmdChar := by
  match cs with
  | [] => cases h
  | c :: cs' =>
    simp only [matchCmd] at h
    split at h
    · rename_i hc
      cases h
      exact ⟨c, cs', rfl, hc, rfl, rfl⟩
    · cases h


theorem matchCmd_some_append {cs v r : List Char}
    (h : matchCmd cs = some (v, r)) (sfx' : List Char) :
    matchCmd (cs ++ ' ' :: sfx') = some (v, r ++ ' ' :: sfx') := by
  obtain ⟨c, cs', rfl, hc, rfl, rfl⟩ := matchCmd_some_inv h
  simp only [List.cons_append, matchCmd]
  rw [if_pos hc]
  rw [takeWhile_append_space (by decide), dropWhile_append_space (by decide)]


/-- Character-class facts used to transfer pattern failures across an
append: a `[a-zA-Z0-9_-]` character is not whitespace and is none of
the operator or quote characters. -/
theorem isCmdChar_props {c : Char} (h : isCmdChar c = true) :
    isSpaceChar c = false ∧ c ≠ '&' ∧ c ≠ '|' ∧ c ≠ ';' ∧ c ≠ '"' ∧ c ≠ '\'' := by
  refine ⟨?_, ?_, ?_, ?_, ?_, ?_⟩
  · cases hsp : isSpaceChar c
    · rfl
    · exfalso
      simp only [isSpaceChar, Bool.or_eq_true, decide_eq_true_eq] at hsp
      rcases hsp with ((((h1|h1)|h1)|h1)|h1)|h1 <;> (subst h1; exact absurd h (by decide))
  all_goals intro heq
  all_goals subst heq
  all_goals exact absurd h (by decide)


theorem matchWs_none_append2 {cs : List Char} (h : matchWs cs = none)
    (hne : cs ≠ []) (sfx : List Char) : matchWs (cs ++ sfx) = none := by
  match cs with
  | [] => exact absurd rfl hne
  | c :: cs' =>
    simp only [matchWs] at h
    split at h
    · cases h
    · rename_i hsp
      simp only [List.cons_append, matchWs]
      rw [if_neg hsp]


theorem matchAnd_none_append2 {cs : List Char} (h : matchAnd cs = none)
    (hne : cs ≠ []) (sfx' : List Char) : matchAnd (cs ++ ' ' :: sfx') = none := by
  match cs with
  | [] => exact absurd rfl hne
  | c :: cs' =>
    by_cases hc : c = '&'
    · subst hc
      match cs' with
      | [] =>
        simp only [List.cons_append, List.nil_append, matchAnd]
        simp only [if_true]
        rw [if_neg (by decide : ¬((' ' : Char) = '&'))]
      | c2 :: cs2 =>
        simp only [matchAnd] at h
        simp only [if_true] at h
        split at h
        · cases h
        · rename_i hc2
          simp only [List.cons_append, matchAnd]
          simp only [if_true]
          rw [if_neg hc2]
    · simp only [List.cons_append, matchAnd]
      rw [if_neg hc]


theorem matchOr_none_append2 {cs : List Char} (h : matchOr cs = none)
    (hne : cs ≠ []) (sfx' : List Char) : matchOr (cs ++ ' ' :: sfx') = none := by
  match cs with
  | [] => exact absurd rfl hne
  | c :: cs' =>
    by_cases hc : c = '|'
    · subst hc
      match cs' with
      | [] =>
        simp only [List.cons_append, List.nil_append, matchOr]
        simp only [if_true]
        rw [if_neg (by decide : ¬((' ' : Char) = '|'))]
      | c2 :: cs2 =>
        simp only [matchOr] at h
        simp only [if_true] at h
        split at h
        · cases h
        · rename_i hc2
          simp only [List.cons_append, matchOr]
          simp only [if_true]
          rw [if_neg hc2]
    · simp only [List.cons_append, matchOr]
      rw [if_neg hc]


theorem matchSemi_none_append2 {cs : List Char} (h : matchSemi cs = none)
    (hne : cs ≠ []) (sfx : List Char) : matchSemi (cs ++ sfx) = none := by
  match cs with
  | [] => exact absurd rfl hne
  | c :: cs' =>
    simp only [matchSemi] at h
    split at h
    · cases h
    · rename_i hc
      simp only [List.cons_append, matchSemi]
      rw [if_neg hc]


/-- A successful (non-whitespace) master-pattern match is preserved by
appending ` …` after the input: the boundary space cannot extend any
of the patterns, and the failure of every higher-priority pattern is
likewise preserved. -/
theorem nextStep_tok_append {cs : List Char} {t : Token} {r : List Char}
    (h : nextStep cs = Step.tok t r) (sfx' : List Char) :
    nextStep (cs ++ ' ' :: sfx') = Step.tok t (r ++ ' ' :: sfx') := by
  have hne : cs ≠ [] := by
    intro hemp
    subst hemp
    have : nextStep [] = Step.ws [] := rfl
    rw [this] at h
    cases h
  unfold nextStep at h
  cases hw : matchWs cs with
  | some r0 => rw [hw] at h; cases h
  | none =>
  rw [hw] at h
  unfold nextStep
  rw [matchWs_none_append2 hw hne]
  cases ha : matchAnd cs with
  | some r0 =>
    rw [ha] at h
    cases h
    rw [matchAnd_some_append ha]
  | none =>
  rw [ha] at h
  rw [matchAnd_none_append2 ha hne]
  cases ho : matchOr cs with
  | some r0 =>
    rw [ho] at h
    cases h
    rw [matchOr_some_append ho]
  | none =>
  rw [ho] at h
  rw [matchOr_none_append2 ho hne]
  cases hs : matchSemi cs with
  | some r0 =>
    rw [hs] at h
    cases h
    rw [matchSemi_some_append hs]
  | none =>
  rw [hs] at h
  rw [matchSemi_none_append2 hs hne]
  cases hf : matchFlag cs with
  | some vr =>
    obtain ⟨v, r0⟩ := vr
    rw [hf] at h
    cases h
    rw [matchFlag_some_append hf]
  | none =>
  rw [hf] at h
  rw [matchFlag_none_append hf hne]
  cases hq : matchQuoted '"' cs with
  | some vr =>
    obtain ⟨v, r0⟩ := vr
    rw [hq] at h
    cases h
    rw [matchQuoted_some_append hq]
  | none =>
  rw [hq] at h
  cases hq2 : matchQuoted '\'' cs with
  | some vr =>
    obtain ⟨v, r0⟩ := vr
    rw [hq2] at h
    cases h
    obtain ⟨cs', rfl⟩ := matchQuoted_some_head hq2
    rw [matchQuoted_none_head _ _ (by decide : ('\'' : Char) ≠ '"')]
    rw [matchQuoted_some_append hq2]
  | none =>
  rw [hq2] at h
  cases hc : matchCmd cs with
  | some vr =>
    obtain ⟨v, r0⟩ := vr
    rw [hc] at h
    cases h
    obtain ⟨c, cs', rfl, hcmd, -, -⟩ := matchCmd_some_inv hc
    have hprops := isCmdChar_props hcmd
    rw [matchQuoted_none_head _ _ hprops.2.2.2.2.1]
    rw [matchQuoted_none_head _ _ hprops.2.2.2.2.2]
    rw [matchCmd_some_append hc]
  | none =>
  rw [hc] at h
  cases cs with
  | nil => exact absurd rfl hne
  | cons c cs' => cases h


theorem nextStep_of_ws {cs r : List Char} (h : matchWs cs = some r) :
    nextStep cs = Step.ws r := by
  unfold nextStep
  rw [h]


theorem nextStep_ws_inv {cs rest : List Char} (hne : cs ≠ [])
    (h : nextStep cs = Step.ws rest) : matchWs cs = some rest := by
  unfold nextStep at h
  cases hw : matchWs cs with
  | some r => rw [hw] at h; cases h; rfl
  | none =>
  rw [hw] at h
  cases ha : matchAnd cs with
  | some r => rw [ha] at h; cases h
  | none =>
  rw [ha] at h
  cases ho : matchOr cs with
  | some r => rw [ho] at h; cases h
  | none =>
  rw [ho] at h
  cases hs : matchSemi cs with
  | some r => rw [hs] at h; cases h
  | none =>
  rw [hs] at h
  cases hf : matchFlag cs with
  | some vr => obtain ⟨v, r⟩ := vr; rw [hf] at h; cases h
  | none =>
  rw [hf] at h
  cases hq : matchQuoted '"' cs with
  | some vr => obtain ⟨v, r⟩ := vr; rw [hq] at h; cases h
  | none =>
  rw [hq] at h
  cases hq2 : matchQuoted '\'' cs with
  | some vr => obtain ⟨v, r⟩ := vr; rw [hq2] at h; cases h
  | none =>
  rw [hq2] at h
  cases hc : matchCmd cs with
  | some vr => obtain ⟨v, r⟩ := vr; rw [hc] at h; cases h
  | none =>
  rw [hc] at h
  cases cs with
  | nil => exact absurd rfl hne
  | cons c cs' => cases h


theorem scanGo_none_shift : ∀ (f : Nat) (cs : List Char) (p1 p2 : Nat) (ts : List Token),
    scanGo f cs p1 = (ts, none) → scanGo f cs p2 = (ts, none) := by
  intro f
  induction f with
  | zero =>
    intro cs p1 p2 ts h
    cases h
    rfl
  | succ g ih =>
    intro cs p1 p2 ts h
    cases cs with
    | nil => cases h; rfl
    | cons c cs' =>
      rw [scanGo] at h ⊢
      cases hs : nextStep (c :: cs') with
      | ws rest =>
        rw [hs] at h
        dsimp only at h ⊢
        exact ih rest _ _ ts h
      | tok t rest =>
        rw [hs] at h
        dsimp only at h ⊢
        cases hrec : scanGo g rest (p1 + ((c :: cs').length - rest.length)) with
        | mk ts2 e2 =>
          rw [hrec] at h
          cases h
          rw [ih rest _ _ ts2 hrec]
      | bad ch =>
        rw [hs] at h
        cases h


theorem scanTokens_none_shift {cs : List Char} {p1 p2 : Nat} {ts : List Token}
    (h : scanTokens cs p1 = (ts, none)) : scanTokens cs p2 = (ts, none) :=
  scanGo_none_shift cs.length cs p1 p2 ts h


theorem scanTokens_ws_absorb (cs : List Char) (q : Nat) :
    scanTokens cs q =
      scanTokens (cs.dropWhile isSpaceChar)
        (q + (cs.length - (cs.dropWhile isSpaceChar).length)) := by
  cases cs with
  | nil => rfl
  | cons c cs' =>
    cases hc : isSpaceChar c with
    | false =>
      rw [List.dropWhile_cons]
      simp [hc]
    | true =>
      rw [scanTokens_cons]
      rw [nextStep_of_ws (show matchWs (c :: cs') = some (cs'.dropWhile isSpaceChar) from by
        simp only [matchWs]; rw [if_pos hc])]
      rw [List.dropWhile_cons]
      simp only [hc, if_true]


theorem scanTokens_append_aux : ∀ (n : Nat) (csA : List Char), csA.length ≤ n →
    ∀ (pos : Nat) (tsA : List Token) (sfx' : List Char),
    scanTokens csA pos = (tsA, none) →
    scanTokens (csA ++ ' ' :: sfx') pos =
      (tsA ++ (scanTokens (' ' :: sfx') (pos + csA.length)).1,
       (scanTokens (' ' :: sfx') (pos + csA.length)).2) := by
  intro n
  induction n with
  | zero =>
    intro csA hlen pos tsA sfx' h
    have hnil : csA = [] := List.length_eq_zero.mp (Nat.le_zero.mp hlen)
    subst hnil
    rw [scanTokens_nil] at h
    cases h
    simp
  | succ m ih =>
    intro csA hlen pos tsA sfx' h
    cases csA with
    | nil =>
      rw [scanTokens_nil] at h
      cases h
      simp
    | cons c cs' =>
      rw [scanTokens_cons] at h
      cases hs : nextStep (c :: cs') with
      | ws rest =>
        rw [hs] at h
        dsimp only at h
        have hrl : rest.length < (c :: cs').length :=
          nextStep_rest_length (List.cons_ne_nil c cs') (by rw [hs]; rfl)
        have hmw : matchWs (c :: cs') = some rest :=
          nextStep_ws_inv (List.cons_ne_nil c cs') hs
        by_cases hrest : rest = []
        · subst hrest
          rw [scanTokens_nil] at h
          cases h
          have hspc : isSpaceChar c = true := by
            by_contra hcon
            rw [Bool.not_eq_true] at hcon
            simp only [matchWs] at hmw
            rw [if_neg (by simp [hcon])] at hmw
            cases hmw
          have hdw : cs'.dropWhile isSpaceChar = [] := by
            simp only [matchWs] at hmw
            rw [if_pos hspc] at hmw
            exact Option.some.inj hmw
          show scanTokens (c :: (cs' ++ ' ' :: sfx')) pos = _
          rw [scanTokens_ws_absorb (c :: (cs' ++ ' ' :: sfx')) pos]
          rw [scanTokens_ws_absorb (' ' :: sfx') (pos + (c :: cs').length)]
          have hd1 : (c :: (cs' ++ ' ' :: sfx')).dropWhile isSpaceChar =
              sfx'.dropWhile isSpaceChar := by
            rw [List.dropWhile_cons]
            simp only [hspc, if_true]
            rw [List.dropWhile_append]
            rw [hdw]
            simp only [List.isEmpty_nil, if_true]
            rw [List.dropWhile_cons, if_pos (by decide : isSpaceChar ' ' = true)]
          have hd2 : (' ' :: sfx').dropWhile isSpaceChar = sfx'.dropWhile isSpaceChar := by
            rw [List.dropWhile_cons, if_pos (by decide : isSpaceChar ' ' = true)]
          rw [hd1, hd2]
          have hdl : (sfx'.dropWhile isSpaceChar).length ≤ sfx'.length :=
            length_dropWhile_le _ _
          have hpos : pos + ((c :: (cs' ++ ' ' :: sfx')).length -
              (sfx'.dropWhile isSpaceChar).length) =
              pos + (c :: cs').length +
                ((' ' :: sfx').length - (sfx'.dropWhile isSpaceChar).length) := by
            simp only [List.length_cons, List.length_append] at hrl hlen ⊢
            omega
          rw [hpos]
          simp
        · have hcomb : nextStep (c :: (cs' ++ ' ' :: sfx')) = Step.ws (rest ++ ' ' :: sfx') :=
            nextStep_of_ws (matchWs_some_append hmw hrest sfx')
          show scanTokens (c :: (cs' ++ ' ' :: sfx')) pos = _
          rw [scanTokens_cons, hcomb]
          dsimp only
          have hpos : pos + ((c :: (cs' ++ ' ' :: sfx')).length -
              (rest ++ ' ' :: sfx').length) =
              pos + ((c :: cs').length - rest.length) := by
            simp only [List.length_cons, List.length_append] at hrl ⊢
            omega
          rw [hpos]
          have hbound : rest.length ≤ m := by
            simp only [List.length_cons] at hlen hrl
            omega
          rw [ih rest hbound (pos + ((c :: cs').length - rest.length)) tsA sfx' h]
          have hpos2 : pos + ((c :: cs').length - rest.length) + rest.length =
              pos + (c :: cs').length := by
            simp only [List.length_cons] at hrl ⊢
            omega
          rw [hpos2]
      | tok t rest =>
        rw [hs] at h
        dsimp only at h
        cases hres : scanTokens rest (pos + ((c :: cs').length - rest.length)) with
        | mk ts2 e2 =>
          rw [hres] at h
          cases h
          have hrl : rest.length < (c :: cs').length :=
            nextStep_rest_length (List.cons_ne_nil c cs') (by rw [hs]; rfl)
          have hcomb := nextStep_tok_append hs sfx'
          show scanTokens (c :: (cs' ++ ' ' :: sfx')) pos = _
          rw [scanTokens_cons,
            show nextStep (c :: (cs' ++ ' ' :: sfx')) = Step.tok t (rest ++ ' ' :: sfx')
              from hcomb]
          dsimp only
          have hpos : pos + ((c :: (cs' ++ ' ' :: sfx')).length -
              (rest ++ ' ' :: sfx').length) =
              pos + ((c :: cs').length - rest.length) := by
            simp only [List.length_cons, List.length_append] at hrl ⊢
            omega
          rw [hpos]
          have hbound : rest.length ≤ m := by
            simp only [List.length_cons] at hlen hrl
            omega
          rw [ih rest hbound (pos + ((c :: cs').length - rest.length)) ts2 sfx' hres]
          have hpos2 : pos + ((c :: cs').length - rest.length) + rest.length =
              pos + (c :: cs').length := by
            simp only [List.length_cons] at hrl ⊢
            omega
          rw [hpos2]
          simp
      | bad ch =>
        rw [hs] at h
        cases h


/-- Scanning `A ⧺ " " ⧺ rest` decomposes into scanning `A` (when that
scan succeeds) followed by scanning `" " ⧺ rest` from the position
after `A`. -/
theorem scanTokens_append {csA : List Char} {pos : Nat} {tsA : List Token}
    (sfx' : List Char) (h : scanTokens csA pos = (tsA, none)) :
    scanTokens (csA ++ ' ' :: sfx') pos =
      (tsA ++ (scanTokens (' ' :: sfx') (pos + csA.length)).1,
       (scanTokens (' ' :: sfx') (pos + csA.length)).2) :=
  scanTokens_append_aux csA.length csA le_rfl pos tsA sfx' h


theorem scanTokens_space_skip (cs : List Char) (p : Nat) :
    scanTokens (' ' :: cs) p = scanTokens cs (p + 1) := by
  rw [scanTokens_ws_absorb (' ' :: cs) p, scanTokens_ws_absorb cs (p + 1)]
  have hd : (' ' :: cs).dropWhile isSpaceChar = cs.dropWhile isSpaceChar := by
    rw [List.dropWhile_cons, if_pos (by decide : isSpaceChar ' ' = true)]
  rw [hd]
  have hdl : (cs.dropWhile isSpaceChar).length ≤ cs.length := length_dropWhile_le _ _
  have hpos : p + ((' ' :: cs).length - (cs.dropWhile isSpaceChar).length) =
      p + 1 + (cs.length - (cs.dropWhile isSpaceChar).length) := by
    simp only [List.length_cons]
    omega
  rw [hpos]


/-- Scanning `A ⧺ " " ⧺ sep ⧺ " " ⧺ B` yields `A`'s tokens, the
separator token, and `B`'s tokens, for any separator whose match is a
single master-pattern step. -/
theorem scanTokens_sep_line {A B : List Char} {tsA tsB : List Token}
    (hA : scanTokens A 0 = (tsA, none)) (hB : scanTokens B 0 = (tsB, none))
    (sep : List Char) (sepT : Token)
    (hsep : ∀ cs : List Char, nextStep (sep ++ cs) = Step.tok sepT cs) :
    scanTokens (A ++ ' ' :: (sep ++ ' ' :: B)) 0 = (tsA ++ sepT :: tsB, none) := by
  rw [scanTokens_append (sep ++ ' ' :: B) hA]
  rw [scanTokens_space_skip]
  have hstep : ∀ q : Nat, scanTokens (sep ++ ' ' :: B) q = (sepT :: tsB, none) := by
    intro q
    cases hsk : sep ++ ' ' :: B with
    | nil => exact absurd hsk (by simp)
    | cons c cs' =>
      rw [← hsk, show sep ++ ' ' :: B = c :: cs' from hsk, scanTokens_cons, ← hsk]
      rw [hsep (' ' :: B)]
      dsimp only
      rw [scanTokens_space_skip]
      rw [scanTokens_none_shift hB]
  rw [hstep]


theorem nextStep_and_lit (cs : List Char) :
    nextStep ('&' :: '&' :: cs) = Step.tok ⟨TokType.AND, "&&"⟩ cs := rfl


theorem nextStep_or_lit (cs : List Char) :
    nextStep ('|' :: '|' :: cs) = Step.tok ⟨TokType.OR, "||"⟩ cs := rfl


theorem nextStep_semi_lit (cs : List Char) :
    nextStep (';' :: cs) = Step.tok ⟨TokType.SEMI, ";"⟩ cs := rfl


/-- Tokenizing the line `A ⧺ " " ⧺ sep ⧺ " " ⧺ B` for a one-token
separator text. -/
theorem tokenize_sep_line {A B : String} {tsA tsB : List Token}
    (hA : scanTokens A.data 0 = (tsA, none)) (hB : scanTokens B.data 0 = (tsB, none))
    (sepS : String) (sepT : Token)
    (hsep : ∀ cs : List Char, nextStep (sepS.data ++ cs) = Step.tok sepT cs) :
    tokenize (A ++ " " ++ sepS ++ " " ++ B) =
      (tsA ++ sepT :: (tsB ++ [⟨TokType.EOF, ""⟩]), none) := by
  unfold tokenize
  have hdata : (A ++ " " ++ sepS ++ " " ++ B).data =
      A.data ++ ' ' :: (sepS.data ++ ' ' :: B.data) := by
    simp [String.data_append]
  rw [hdata]
  rw [scanTokens_sep_line hA hB sepS.data sepT hsep]
  simp


theorem stopTok_not_arg {k : TokType} (h : stopTok k = true) :
    ¬(k = TokType.COMMAND ∨ k = TokType.STRING) := by
  cases k <;> simp_all [stopTok]


theorem argTok_not_stop {k : TokType}
    (h : k = TokType.FLAG ∨ k = TokType.STRING ∨ k = TokType.COMMAND) :
    stopTok k = false := by
  rcases h with h|h|h <;> (subst h; rfl)


/-- The argument loop run over tokens that are all FLAG, STRING or
COMMAND consumes them all, stops exactly at the first stop token, and
accumulates the same arguments no matter which stop token follows and
what comes after it. -/
theorem argsLoop_stops : ∀ (n : Nat) (ts : List Token), ts.length ≤ n →
    (∀ x ∈ ts, x.type = TokType.FLAG ∨ x.type = TokType.STRING ∨ x.type = TokType.COMMAND) →
    ∀ (t1 : Token) (r1 : List Token) (t2 : Token) (r2 : List Token),
    stopTok t1.type = true → stopTok t2.type = true →
    ∀ args kwargs,
    ∃ a k, argsLoop (ts ++ t1 :: r1) args kwargs = (a, k, t1 :: r1) ∧
           argsLoop (ts ++ t2 :: r2) args kwargs = (a, k, t2 :: r2) := by
  intro n
  induction n with
  | zero =>
    intro ts hlen _ t1 r1 t2 r2 hs1 hs2 args kwargs
    have hnil : ts = [] := List.length_eq_zero.mp (Nat.le_zero.mp hlen)
    subst hnil
    refine ⟨args, kwargs, ?_, ?_⟩
    · rw [List.nil_append, argsLoop_cons, if_pos hs1]
    · rw [List.nil_append, argsLoop_cons, if_pos hs2]
  | succ m ih =>
    intro ts hlen hFSC t1 r1 t2 r2 hs1 hs2 args kwargs
    cases ts with
    | nil =>
      refine ⟨args, kwargs, ?_, ?_⟩
      · rw [List.nil_append, argsLoop_cons, if_pos hs1]
      · rw [List.nil_append, argsLoop_cons, if_pos hs2]
    | cons t ts' =>
      have htt := hFSC t (List.mem_cons_self t ts')
      have htstop : stopTok t.type = false := argTok_not_stop htt
      have hFSC' : ∀ x ∈ ts', x.type = TokType.FLAG ∨ x.type = TokType.STRING ∨
          x.type = TokType.COMMAND := fun x hx => hFSC x (List.mem_cons_of_mem t hx)
      have hlen' : ts'.length ≤ m := by
        simp only [List.length_cons] at hlen
        omega
      have hnstop : ¬(stopTok t.type = true) := by simp [htstop]
      simp only [List.cons_append]
      rw [argsLoop_cons, if_neg hnstop, argsLoop_cons, if_neg hnstop]
      by_cases hflag : t.type = TokType.FLAG
      · rw [if_pos hflag, if_pos hflag]
        by_cases heq : hasEq (lstripDash t.value) = true
        · simp only [heq, if_true]
          exact ih ts' hlen' hFSC' t1 r1 t2 r2 hs1 hs2 args _
        · simp only [heq, if_false, Bool.false_eq_true]
          cases ts' with
          | nil =>
            simp only [List.nil_append]
            have hns1 : ¬(t1.type = TokType.COMMAND || t1.type = TokType.STRING) = true := by
              intro hcon
              rcases Bool.or_eq_true _ _ |>.mp hcon with hc | hc
              · exact stopTok_not_arg hs1 (Or.inl (by simpa using hc))
              · exact stopTok_not_arg hs1 (Or.inr (by simpa using hc))
            have hns2 : ¬(t2.type = TokType.COMMAND || t2.type = TokType.STRING) = true := by
              intro hcon
              rcases Bool.or_eq_true _ _ |>.mp hcon with hc | hc
              · exact stopTok_not_arg hs2 (Or.inl (by simpa using hc))
              · exact stopTok_not_arg hs2 (Or.inr (by simpa using hc))
            rw [if_neg hns1, if_neg hns2]
            refine ⟨args, dictInsert (lstripDash t.value) (ArgVal.bool true) kwargs, ?_, ?_⟩
            · rw [argsLoop_cons, if_pos hs1]
            · rw [argsLoop_cons, if_pos hs2]
          | cons t2' ts2' =>
            simp only [List.cons_append]
            by_cases harg : (t2'.type = TokType.COMMAND || t2'.type = TokType.STRING) = true
            · rw [if_pos harg, if_pos harg]
              have hlen2 : ts2'.length ≤ m := by
                simp only [List.length_cons] at hlen
                omega
              exact ih ts2' hlen2
                (fun x hx => hFSC' x (List.mem_cons_of_mem t2' hx)) t1 r1 t2 r2 hs1 hs2 args _
            · rw [if_neg harg, if_neg harg]
              exact ih (t2' :: ts2') hlen' hFSC' t1 r1 t2 r2 hs1 hs2 args _
      · rw [if_neg hflag, if_neg hflag]
        have harg : (t.type = TokType.COMMAND || t.type = TokType.STRING) = true := by
          rcases htt with h|h|h
          · exact absurd h hflag
          · simp [h]
          · simp [h]
        rw [if_pos harg, if_pos harg]
        by_cases hval : hasEq t.value = true
        · simp only [hval, if_true]
          exact ih ts' hlen' hFSC' t1 r1 t2 r2 hs1 hs2 args _
        · simp only [hval, if_false, Bool.false_eq_true]
          exact ih ts' hlen' hFSC' t1 r1 t2 r2 hs1 hs2 _ kwargs


theorem scanTokens_FSC {cs : List Char} {ts : List Token}
    (h : scanTokens cs 0 = (ts, none)) (hsep : ∀ t ∈ ts, sepTok t.type = false) :
    ∀ t ∈ ts, t.type = TokType.FLAG ∨ t.type = TokType.STRING ∨
      t.type = TokType.COMMAND := by
  intro t ht
  have h2 : scanGo cs.length cs 0 = (ts, none) := h
  have hspec := scanGo_tok_spec cs.length cs 0 t (by rw [h2]; exact ht)
  have hs := hsep t ht
  obtain ⟨h1, hw, hm, -⟩ := hspec
  cases htk : t.type <;> simp_all [sepTok]


/-- Parsing one separator-free chain followed by a separator token and
an arbitrary remainder: the first chain parses exactly as it does
before an EOF token, the separator is consumed, and parsing continues
on the remainder. -/
theorem parse_chain_append :
    ∀ (tsA : List Token) (chA : Chain),
    (∀ t ∈ tsA, t.type = TokType.FLAG ∨ t.type = TokType.STRING ∨
      t.type = TokType.COMMAND) →
    parse (tsA ++ [⟨TokType.EOF, ""⟩]) = Except.ok [chA] →
    ∀ (sepT : Token), stopTok sepT.type = true → sepTok sepT.type = true →
    ∀ (rest : List Token) (cs : List Chain), parse rest = Except.ok cs →
    parse (tsA ++ sepT :: rest) = Except.ok (chA :: cs) := by
  intro tsA chA hFSC h1 sepT hstop hsep rest cs hrest
  cases tsA with
  | nil =>
    rw [List.nil_append] at h1
    rw [show parse [(⟨TokType.EOF, ""⟩ : Token)] = Except.ok [] from rfl] at h1
    cases h1
  | cons t tsA' =>
    have htt := hFSC t (List.mem_cons_self t tsA')
    have htne1 : ¬((curTok ((t :: tsA') ++ [(⟨TokType.EOF, ""⟩ : Token)])).type =
        TokType.EOF) := by
      show ¬(t.type = TokType.EOF)
      rcases htt with h|h|h <;> simp [h]
    have htne2 : ¬((curTok ((t :: tsA') ++ sepT :: rest)).type = TokType.EOF) := by
      show ¬(t.type = TokType.EOF)
      rcases htt with h|h|h <;> simp [h]
    rw [parse_eq, if_neg htne1] at h1
    by_cases hC : t.type = TokType.COMMAND
    · obtain ⟨a, k, he1, he2⟩ := argsLoop_stops tsA'.length tsA' le_rfl
        (fun x hx => hFSC x (List.mem_cons_of_mem t hx))
        ⟨TokType.EOF, ""⟩ [] sepT rest (by decide) hstop [] []
      have hpc1 : parse_chain ((t :: tsA') ++ [(⟨TokType.EOF, ""⟩ : Token)]) =
          Except.ok (⟨some "COMMAND", t.value, a, k⟩, [⟨TokType.EOF, ""⟩]) := by
        unfold parse_chain parse_command
        dsimp only
        rw [if_pos (show (curTok ((t :: tsA') ++ [(⟨TokType.EOF, ""⟩ : Token)])).type =
          TokType.COMMAND from hC)]
        simp only [List.cons_append, List.tail_cons]
        rw [he1]
        rfl
      have hpc2 : parse_chain ((t :: tsA') ++ sepT :: rest) =
          Except.ok (⟨some "COMMAND", t.value, a, k⟩, sepT :: rest) := by
        unfold parse_chain parse_command
        dsimp only
        rw [if_pos (show (curTok ((t :: tsA') ++ sepT :: rest)).type =
          TokType.COMMAND from hC)]
        simp only [List.cons_append, List.tail_cons]
        rw [he2]
        rfl
      rw [hpc1] at h1
      dsimp only at h1
      rw [show (if sepTok (curTok [(⟨TokType.EOF, ""⟩ : Token)]).type = true
          then [(⟨TokType.EOF, ""⟩ : Token)].tail else [⟨TokType.EOF, ""⟩]) =
          [(⟨TokType.EOF, ""⟩ : Token)] from rfl] at h1
      rw [show parse [(⟨TokType.EOF, ""⟩ : Token)] = Except.ok [] from rfl] at h1
      dsimp only at h1
      rw [parse_eq, if_neg htne2, hpc2]
      dsimp only
      rw [show (if sepTok (curTok (sepT :: rest)).type = true
          then (sepT :: rest).tail else sepT :: rest) = rest from by
        show (if sepTok sepT.type = true then rest else sepT :: rest) = rest
        rw [if_pos hsep]]
      rw [hrest]
      dsimp only
      injection h1 with h1'
      injection h1' with h2 h3
      rw [h2]
    · exfalso
      have hpc : parse_chain ((t :: tsA') ++ [(⟨TokType.EOF, ""⟩ : Token)]) =
          Except.error ("Expected command, got " ++
            tokTypeStr (curTok ((t :: tsA') ++ [(⟨TokType.EOF, ""⟩ : Token)])).type) := by
        unfold parse_chain parse_command
        dsimp only
        rw [if_neg (show ¬((curTok ((t :: tsA') ++ [(⟨TokType.EOF, ""⟩ : Token)])).type =
          TokType.COMMAND) from hC)]
      rw [hpc] at h1
      cases h1


/-- C7: for well-formed command texts `A` and `B` (each tokenizes
without error, `A`'s tokens contain no separator, and each parses to a
single chain), the lines `A && B`, `A ; B` and `A || B` all parse to
the same ordered two-chain result: the chain of `A`, then the chain of
`B`.  The separator token is consumed and retained on neither chain,
and the separator kind makes no difference to the parse result. -/
theorem C7_separator_equivalence
    (A B : String) (tsA tsB : List Token) (chA chB : Chain)
    (hA1 : scanTokens A.data 0 = (tsA, none))
    (hA2 : ∀ t ∈ tsA, sepTok t.type = false)
    (hA3 : parse (tsA ++ [⟨TokType.EOF, ""⟩]) = Except.ok [chA])
    (hB1 : scanTokens B.data 0 = (tsB, none))
    (hB3 : parse (tsB ++ [⟨TokType.EOF, ""⟩]) = Except.ok [chB]) :
    parseLine (A ++ " " ++ "&&" ++ " " ++ B) = Except.ok [chA, chB] ∧
    parseLine (A ++ " " ++ ";" ++ " " ++ B) = Except.ok [chA, chB] ∧
    parseLine (A ++ " " ++ "||" ++ " " ++ B) = Except.ok [chA, chB] := by
  have hFSC := scanTokens_FSC hA1 hA2
  refine ⟨?_, ?_, ?_⟩
  · have htok := tokenize_sep_line hA1 hB1 "&&" ⟨TokType.AND, "&&"⟩
      (fun cs => nextStep_and_lit cs)
    unfold parseLine
    rw [htok]
    dsimp only
    rw [parse_chain_append tsA chA hFSC hA3 ⟨TokType.AND, "&&"⟩ (by decide) (by decide)
      (tsB ++ [(⟨TokType.EOF, ""⟩ : Token)]) [chB] hB3]
  · have htok := tokenize_sep_line hA1 hB1 ";" ⟨TokType.SEMI, ";"⟩
      (fun cs => nextStep_semi_lit cs)
    unfold parseLine
    rw [htok]
    dsimp only
    rw [parse_chain_append tsA chA hFSC hA3 ⟨TokType.SEMI, ";"⟩ (by decide) (by decide)
      (tsB ++ [(⟨TokType.EOF, ""⟩ : Token)]) [chB] hB3]
  · have htok := tokenize_sep_line hA1 hB1 "||" ⟨TokType.OR, "||"⟩
      (fun cs => nextStep_or_lit cs)
    unfold parseLine
    rw [htok]
    dsimp only
    rw [parse_chain_append tsA chA hFSC hA3 ⟨TokType.OR, "||"⟩ (by decide) (by decide)
      (tsB ++ [(⟨TokType.EOF, ""⟩ : Token)]) [chB] hB3]


theorem C7_witness :
    parseLine ("echo hi" ++ " " ++ "&&" ++ " " ++ "ls -l") =
      Except.ok [⟨some "COMMAND", "echo", ["hi"], []⟩,
                 ⟨some "COMMAND", "ls", [], [("l", ArgVal.bool true)]⟩] ∧
    parseLine ("echo hi" ++ " " ++ ";" ++ " " ++ "ls -l") =
      Except.ok [⟨some "COMMAND", "echo", ["hi"], []⟩,
                 ⟨some "COMMAND", "ls", [], [("l", ArgVal.bool true)]⟩] ∧
    parseLine ("echo hi" ++ " " ++ "||" ++ " " ++ "ls -l") =
      Except.ok [⟨some "COMMAND", "echo", ["hi"], []⟩,
                 ⟨some "COMMAND", "ls", [], [("l", ArgVal.bool true)]⟩] :=
  C7_separator_equivalence "echo hi" "ls -l"
    [⟨TokType.COMMAND, "echo"⟩, ⟨TokType.COMMAND, "hi"⟩]
    [⟨TokType.COMMAND, "ls"⟩, ⟨TokType.FLAG, "-l"⟩]
    ⟨some "COMMAND", "echo", ["hi"], []⟩
    ⟨some "COMMAND", "ls", [], [("l", ArgVal.bool true)]⟩
    (by decide) (by decide) rfl (by decide) rfl

end Cmdly
